import Mathlib

/-!
Verification development for the keyword-expression matching engine
implemented in `src/py/文本/expr_match.py`.

The Python code is shallowly embedded over `List Char`:

* `pyCount` models Python `str.count` (non-overlapping substring count,
  greedy left-to-right; an empty needle counts `len + 1` times).
* `reFindAllAux` models `re.findall` for a pattern that is an alternation
  of escaped literal alternatives: at each position the first alternative
  (in pattern order) that matches is taken and consumed; on no match the
  scan advances one character; an empty alternative yields an empty match.
  `re.escape` is semantically the identity on the matched text, so
  alternatives are modelled as the literal strings themselves.
* `findSimpleCore` / `findRegexCore` model the two cached scanner bodies
  `_find_keywords_simple_cached` / `_find_keywords_regex_cached`.
* the hand-written recursive-descent parser `complex_expression` is
  modelled by `parseOrE` / `parseAndE` / `parseTermE` plus the two
  while-loops, made total with a fuel argument; the wrapper
  `complexExpression` supplies fuel `3 * length + 3`, which exceeds the
  parser's maximal call depth (every three nested calls consume at least
  one character).
* `expr_match` is modelled by `exprMatch`; the caches and the generation
  counter are modelled operationally by `EngineState` / `exprMatchSt`.

Character-level modelling notes: Python `str.lower` is modelled by
`Char.toLower` (ASCII case folding) and the regex class `\s` by
`Char.isWhitespace`; the claims under verification only involve ASCII
expressions and texts, where both coincide with Python.
-/

abbrev Str := List Char

abbrev Assoc := List (Str × Nat)

/-- The four operator characters of the rule grammar; a keyword character is
anything else (regex class `[^\(\)\+\|]` and the parser's `not in '()|+'`). -/
def isKwChar (c : Char) : Bool := !(c = '(' || c = ')' || c = '+' || c = '|')

/-- Python `keyword.lower()` (ASCII fragment). -/
def lowerStr (s : Str) : Str := s.map Char.toLower

/-- Python `c in expr` for a single character `c`. -/
def hasChar : Str → Char → Bool
  | [], _ => false
  | c :: rest, d => c = d || hasChar rest d

/-- `re.sub(r'\s+', '', expr)`: delete all whitespace. -/
def stripWs (s : Str) : Str := s.filter (fun c => !c.isWhitespace)

/-- `re.findall(r'[^\(\)\+\|]+', expr)`: the maximal runs of keyword
characters, in order. -/
def splitKws : Str → List Str
  | [] => []
  | c :: rest =>
    if isKwChar c then
      match rest with
      | [] => [[c]]
      | r :: _ =>
        if isKwChar r then
          match splitKws rest with
          | w :: ws => (c :: w) :: ws
          | [] => [[c]]
        else [c] :: splitKws rest
    else splitKws rest

/-- `set(...)` construction: drop duplicates, canonicalised to
first-occurrence order (every later use is order-insensitive or sorts). -/
def dedupFirst : List Str → List Str
  | [] => []
  | x :: xs => x :: (dedupFirst xs).filter (fun y => decide (y ≠ x))

/-- Python string `<=`: lexicographic comparison by code point. -/
def strLe : Str → Str → Bool
  | [], _ => true
  | _ :: _, [] => false
  | a :: as, b :: bs => if a = b then strLe as bs else decide (a < b)

/-- Insertion step of `sorted(...)`. -/
def insSorted (x : Str) : List Str → List Str
  | [] => [x]
  | y :: ys => if strLe x y then x :: y :: ys else y :: insSorted x ys

/-- Python `sorted(keywords)`. -/
def sortStrs (l : List Str) : List Str := l.foldr insSorted []

/-- Fuel-driven body of Python `text.count(k)` for a non-empty needle `k`:
scan left to right, consuming the needle on a hit, one character otherwise. -/
def pyCountAux : Nat → Str → Str → Nat
  | 0, _, _ => 0
  | f + 1, t, k =>
    if k.isPrefixOf t then 1 + pyCountAux f (t.drop k.length) k
    else
      match t with
      | [] => 0
      | _ :: rest => pyCountAux f rest k

/-- Python `text.count(k)` (an empty needle counts `len + 1` occurrences). -/
def pyCount (t k : Str) : Nat :=
  if k.isEmpty then t.length + 1 else pyCountAux (t.length + 1) t k

/-- Association-list lookup (Python `dict` access by key). -/
def alookup (m : Assoc) (k : Str) : Option Nat :=
  match m with
  | [] => none
  | p :: rest => if p.1 = k then some p.2 else alookup rest k

/-- Python `dict[k] = v`: update in place if the key exists (keeping its
insertion position), append otherwise. -/
def dictSet (m : Assoc) (k : Str) (v : Nat) : Assoc :=
  match alookup m k with
  | some _ => m.map (fun p => if p.1 = k then (p.1, v) else p)
  | none => m ++ [(k, v)]

/-- One step of `collections.Counter`: increment the tally of `x`. -/
def counterIns (m : Assoc) (x : Str) : Assoc :=
  match alookup m x with
  | some n => m.map (fun p => if p.1 = x then (p.1, n + 1) else p)
  | none => m ++ [(x, 1)]

def counterAux : Assoc → List Str → Assoc
  | acc, [] => acc
  | acc, x :: xs => counterAux (counterIns acc x) xs

/-- `dict(Counter(l))`: tally of each distinct element, keys in
first-occurrence order. -/
def pyCounter (l : List Str) : Assoc := counterAux [] l

/-- Body of `_find_keywords_simple_cached`: for each keyword in tuple order,
lowercase it and count its occurrences in the (lowercase) text, keeping
the positive counts. -/
def findSimpleAux : Str → List Str → Assoc → Assoc
  | _, [], acc => acc
  | tl, k :: ks, acc =>
    let kl := lowerStr k
    let c := pyCount tl kl
    findSimpleAux tl ks (if 0 < c then dictSet acc kl c else acc)

def findSimpleCore (textLower : Str) (ks : List Str) : Assoc :=
  findSimpleAux textLower ks []

/-- Regex alternation at one position: `ks.find?` is the pattern-order
preference of `(k1)|(k2)|...`. -/
def tryAlts (ks : List Str) (t : Str) : Option Str :=
  ks.find? (fun k => k.isPrefixOf t)

/-- Fuel-driven `re.findall(pattern, text)` for an alternation of literal
alternatives: take the first alternative matching at the current position
and consume it, otherwise advance one character; an empty match advances
one character (and one final empty match is produced at end of input). -/
def reFindAllAux : Nat → List Str → Str → List Str
  | 0, _, _ => []
  | f + 1, ks, t =>
    match tryAlts ks t with
    | some k =>
      if k.isEmpty then
        match t with
        | [] => [[]]
        | _ :: rest => [] :: reFindAllAux f ks rest
      else k :: reFindAllAux f ks (t.drop k.length)
    | none =>
      match t with
      | [] => []
      | _ :: rest => reFindAllAux f ks rest

/-- Body of `_find_keywords_regex_cached`: alternation of the escaped
lowercased keywords in tuple order, one `findall` pass, then the
flattening `[m for group in matches for m in group if m]` and a `Counter`
tally.  With two or more groups `findall` yields tuples whose only
non-empty component is the matched alternative, so the flattening keeps
exactly the non-empty matches; with a single group `findall` yields plain
strings and `for m in group` iterates over their characters, so the
flattening produces one single-character string per character of each
match. -/
def findRegexCore (textLower : Str) (ks : List Str) : Assoc :=
  if ks.isEmpty then []
  else
    let alts := ks.map lowerStr
    let ms := reFindAllAux (textLower.length + 1) alts textLower
    let flat :=
      if ks.length = 1 then ms.flatten.map (fun c => [c])
      else ms.filter (fun m => !m.isEmpty)
    pyCounter flat

/-- `find_keywords_simple(text, keywords)`: lowercase the text, sort the
keyword set into the cache-key tuple, run the cached body. -/
def findKeywordsSimple (text : Str) (keywords : List Str) : Assoc :=
  findSimpleCore (lowerStr text) (sortStrs keywords)

/-- `find_keywords_regex(text, keywords)`: empty keyword set short-circuits
to the empty mapping before the cache. -/
def findKeywordsRegex (text : Str) (keywords : List Str) : Assoc :=
  if keywords.isEmpty then []
  else findRegexCore (lowerStr text) (sortStrs keywords)

/-! ## The recursive-descent parser `complex_expression` and the evaluator -/

inductive OpKind
  | andK
  | orK
deriving DecidableEq

/-- The dynamically shaped parse results of `complex_expression`: a bare
keyword string, or a dict `{'op': 'AND'|'OR', 'items': [...]}`. -/
inductive AstPy
  | lit (w : Str)
  | opn (op : OpKind) (items : List AstPy)

/-- `parse_and_expr`'s final step: a single item is returned as-is,
otherwise an AND node is built. -/
def mkAndNode : List AstPy → AstPy
  | [a] => a
  | items => .opn .andK items

/-- `parse_or_expr`'s final step. -/
def mkOrNode : List AstPy → AstPy
  | [a] => a
  | items => .opn .orK items

/-- `Parser.peek()`. -/
def peekC : Str → Option Char
  | [] => none
  | c :: _ => some c

mutual

/-- `parse_term`: a parenthesised expression (tolerating a missing `)`)
or a (possibly empty) keyword run. -/
def parseTermE : Nat → Str → Option (AstPy × Str)
  | 0, _ => none
  | f + 1, s =>
    if peekC s = some '(' then
      match parseOrE f (s.drop 1) with
      | some (a, r) => if peekC r = some ')' then some (a, r.drop 1) else some (a, r)
      | none => none
    else some (.lit (s.takeWhile isKwChar), s.dropWhile isKwChar)

/-- The `while self.peek() == '+'` loop of `parse_and_expr`. -/
def parseAndLoopE : Nat → List AstPy → Str → Option (AstPy × Str)
  | 0, _, _ => none
  | f + 1, items, s =>
    if peekC s = some '+' then
      match parseTermE f (s.drop 1) with
      | some (a, r) => parseAndLoopE f (items ++ [a]) r
      | none => none
    else some (mkAndNode items, s)

/-- `parse_and_expr`. -/
def parseAndE : Nat → Str → Option (AstPy × Str)
  | 0, _ => none
  | f + 1, s =>
    match parseTermE f s with
    | some (a, r) => parseAndLoopE f [a] r
    | none => none

/-- The `while self.peek() == '|'` loop of `parse_or_expr`. -/
def parseOrLoopE : Nat → List AstPy → Str → Option (AstPy × Str)
  | 0, _, _ => none
  | f + 1, items, s =>
    if peekC s = some '|' then
      match parseAndE f (s.drop 1) with
      | some (a, r) => parseOrLoopE f (items ++ [a]) r
      | none => none
    else some (mkOrNode items, s)

/-- `parse_or_expr`, the parser entry point. -/
def parseOrE : Nat → Str → Option (AstPy × Str)
  | 0, _ => none
  | f + 1, s =>
    match parseAndE f s with
    | some (a, r) => parseOrLoopE f [a] r
    | none => none

end

/-- `complex_expression(expr)`: strip spaces (the `Parser` constructor's
`expr.replace(' ', '')`), parse from the start, ignore unconsumed input
(the Python `parse()` never checks `pos == length`).  Fuel `3·len + 3`
exceeds the maximal recursion depth, so `none` is unreachable for the
inputs considered in the theorems below. -/
def complexExpression (expr : Str) : Option AstPy :=
  let s := expr.filter (fun c => decide (c ≠ ' '))
  (parseOrE (3 * s.length + 3) s).map Prod.fst

/-- Python `k in target_set`. -/
def memStr (k : Str) : List Str → Bool
  | [] => false
  | x :: xs => x = k || memStr k xs

mutual

/-- `_check_match(parsed_result, target_set)`: an empty string is falsy
(`if not parsed_result: return False`); a keyword tests membership of its
lowercase form; a node with no items is `False`; OR is `any`, AND is `all`. -/
def checkMatch : AstPy → List Str → Bool
  | .lit w, ts => if w.isEmpty then false else memStr (lowerStr w) ts
  | .opn op items, ts =>
    if items.isEmpty then false
    else
      match op with
      | .orK => checkAny items ts
      | .andK => checkAll items ts

def checkAny : List AstPy → List Str → Bool
  | [], _ => false
  | a :: rest, ts => checkMatch a ts || checkAny rest ts

def checkAll : List AstPy → List Str → Bool
  | [], _ => true
  | a :: rest, ts => checkMatch a ts && checkAll rest ts

end

/-! ## `expr_match` -/

/-- The tail of `expr_match` after the scanner ran: the
`if not target_list: return False` guard, the two fast paths, and the full
parse-and-evaluate path.  `e` is the whitespace-stripped expression and
`kws` the extracted keyword set. -/
def exprMatchTail (e : Str) (kws : List Str) (target : Assoc) : Option Assoc :=
  if target.isEmpty then none
  else
    let targetSet := target.map Prod.fst
    if hasChar e '+' && !hasChar e '|' && !hasChar e '(' then
      if (dedupFirst (kws.map lowerStr)).all (fun k => memStr k targetSet) then
        some target
      else none
    else if hasChar e '|' && !hasChar e '+' && !hasChar e '(' then
      if (dedupFirst (kws.map lowerStr)).any (fun k => memStr k targetSet) then
        some target
      else none
    else
      match complexExpression e with
      | some ast => if checkMatch ast targetSet then some target else none
      | none => none

/-- `expr_match(expr, value)`: strip whitespace, extract the keyword set,
reject an empty set, scan with the simple strategy for at most 20 keywords
and the regex strategy otherwise, then run the dispatch tail.  `none`
models the `False` ("no match") return; `some m` models returning the
scanner mapping `m`. -/
def exprMatch (expr value : Str) : Option Assoc :=
  let e := stripWs expr
  let kws := dedupFirst (splitKws e)
  if kws.isEmpty then none
  else
    let valueLower := lowerStr value
    let target :=
      if kws.length ≤ 20 then findKeywordsSimple valueLower kws
      else findKeywordsRegex valueLower kws
    exprMatchTail e kws target

/-- The general path of `expr_match` with the fast-path dispatch removed:
parse with `complex_expression` and evaluate with `_check_match` against
the same found set.  Used to state the fast-path refinement claims. -/
def fullPathTail (e : Str) (target : Assoc) : Option Assoc :=
  if target.isEmpty then none
  else
    let targetSet := target.map Prod.fst
    match complexExpression e with
    | some ast => if checkMatch ast targetSet then some target else none
    | none => none

def fullPathMatch (expr value : Str) : Option Assoc :=
  let e := stripWs expr
  let kws := dedupFirst (splitKws e)
  if kws.isEmpty then none
  else
    let valueLower := lowerStr value
    let target :=
      if kws.length ≤ 20 then findKeywordsSimple valueLower kws
      else findKeywordsRegex valueLower kws
    fullPathTail e target

/-! ## Operational model of the caches and the generation counter -/

/-- An `functools.lru_cache`-backed memo table: bounded entry list (front =
most recently used), hit and miss counters. -/
structure Lru (K V : Type) where
  cap : Nat
  entries : List (K × V)
  hits : Nat
  misses : Nat

/-- Cache lookup with insert-on-miss: a hit moves the entry to the front
and bumps `hits`; a miss computes `f k`, inserts at the front, evicts the
least recently used entry beyond capacity, and bumps `misses`. -/
def Lru.get {K V : Type} [DecidableEq K] (c : Lru K V) (k : K) (f : K → V) :
    V × Lru K V :=
  match c.entries.find? (fun p => decide (p.1 = k)) with
  | some p =>
    (p.2, { c with
            entries := (p.1, p.2) :: c.entries.filter (fun q => decide (q.1 ≠ k)),
            hits := c.hits + 1 })
  | none =>
    let v := f k
    (v, { c with entries := ((k, v) :: c.entries).take c.cap,
                 misses := c.misses + 1 })

def Lru.size {K V : Type} (c : Lru K V) : Nat := c.entries.length

/-- `cache_clear()`: drop all entries and reset the counters. -/
def Lru.clear {K V : Type} (c : Lru K V) : Lru K V :=
  { cap := c.cap, entries := [], hits := 0, misses := 0 }

def emptyLru (K V : Type) (cap : Nat) : Lru K V :=
  { cap := cap, entries := [], hits := 0, misses := 0 }

/-- The module-level mutable state: `_cache_version` plus the three
`lru_cache` tables (capacities 2048, 1024 and 512). -/
structure EngineState where
  version : Nat
  simple : Lru (Str × List Str × Nat) Assoc
  regexc : Lru (Str × List Str × Nat) Assoc
  exprc : Lru (Str × Nat) (Option AstPy)

def initState : EngineState :=
  { version := 0,
    simple := emptyLru _ _ 2048,
    regexc := emptyLru _ _ 1024,
    exprc := emptyLru _ _ 512 }

/-- `invalidate_cache()`: bump the generation, clear all three caches. -/
def invalidateCache (s : EngineState) : EngineState :=
  { version := s.version + 1,
    simple := s.simple.clear,
    regexc := s.regexc.clear,
    exprc := s.exprc.clear }

/-- The fields of `get_cache_info()` used by the claims: the generation and
each cache's current size. -/
structure CacheStats where
  generation : Nat
  simpleSize : Nat
  regexSize : Nat
  exprSize : Nat

def getCacheInfo (s : EngineState) : CacheStats :=
  { generation := s.version,
    simpleSize := s.simple.size,
    regexSize := s.regexc.size,
    exprSize := s.exprc.size }

/-- Stateful `find_keywords_simple`: key = (lowercased text, sorted keyword
tuple, current generation); the cached body depends only on the key. -/
def findKeywordsSimpleSt (s : EngineState) (text : Str) (keywords : List Str) :
    Assoc × EngineState :=
  let key := (lowerStr text, sortStrs keywords, s.version)
  let r := s.simple.get key (fun q => findSimpleCore q.1 q.2.1)
  (r.1, { s with simple := r.2 })

/-- Stateful `find_keywords_regex` (empty set bypasses the cache). -/
def findKeywordsRegexSt (s : EngineState) (text : Str) (keywords : List Str) :
    Assoc × EngineState :=
  if keywords.isEmpty then ([], s)
  else
    let key := (lowerStr text, sortStrs keywords, s.version)
    let r := s.regexc.get key (fun q => findRegexCore q.1 q.2.1)
    (r.1, { s with regexc := r.2 })

/-- Stateful `expr_match`.  Note the full parse path calls
`complexExpression` directly, exactly as line 321 of the source calls
`complex_expression` and not `_complex_expression_cached`: the
parsed-expression cache is never consulted nor populated. -/
def exprMatchSt (s : EngineState) (expr value : Str) : Option Assoc × EngineState :=
  let e := stripWs expr
  let kws := dedupFirst (splitKws e)
  if kws.isEmpty then (none, s)
  else
    let valueLower := lowerStr value
    let r :=
      if kws.length ≤ 20 then findKeywordsSimpleSt s valueLower kws
      else findKeywordsRegexSt s valueLower kws
    (exprMatchTail e kws r.1, r.2)

/-- Cache-content invariant: every stored value is the cached body applied
to its own key (true initially and preserved by every operation, since the
caches only ever store computed values). -/
def goodState (s : EngineState) : Prop :=
  (∀ p ∈ s.simple.entries, p.2 = findSimpleCore p.1.1 p.1.2.1) ∧
  (∀ p ∈ s.regexc.entries, p.2 = findRegexCore p.1.1 p.1.2.1)

/-! ## Shapes of expressions used in the claims -/

/-- A well-formed operand: non-empty, made of keyword characters, and free
of whitespace (so that `expr_match`'s whitespace stripping and keyword
extraction leave it intact). -/
def validChar (c : Char) : Bool := isKwChar c && !c.isWhitespace

def validWordB (w : Str) : Bool := !w.isEmpty && w.all validChar

def validWord (w : Str) : Prop := validWordB w = true

/-- `"+w1+w2+...+wn"`. -/
def plusChain : List Str → Str
  | [] => []
  | w :: ws => '+' :: (w ++ plusChain ws)

/-- `"w1+w2+...+wn"`, a pure AND chain. -/
def andChainStr : List Str → Str
  | [] => []
  | w :: ws => w ++ plusChain ws

/-- `"|w1|w2|...|wn"`. -/
def barChain : List Str → Str
  | [] => []
  | w :: ws => '|' :: (w ++ barChain ws)

/-- `"w1|w2|...|wn"`, a pure OR chain. -/
def orChainStr : List Str → Str
  | [] => []
  | w :: ws => w ++ barChain ws

/-- The AST the parser produces for a pure AND chain. -/
def andAst (ws : List Str) : AstPy := mkAndNode (ws.map AstPy.lit)

/-- The AST the parser produces for a pure OR chain. -/
def orAst (ws : List Str) : AstPy := mkOrNode (ws.map AstPy.lit)

/-- `w` wrapped in `n` layers of redundant parentheses. -/
def wrapParens (n : Nat) (w : Str) : Str :=
  List.replicate n '(' ++ w ++ List.replicate n ')'

/-- `true` iff the string starts with a keyword character. -/
def headKw : Str → Bool
  | [] => false
  | c :: _ => isKwChar c

/-! ## Lemmas: the cache invariant -/

theorem lruGetVal {K V : Type} [DecidableEq K] (c : Lru K V) (k : K) (f : K → V)
    (h : ∀ p ∈ c.entries, p.2 = f p.1) : (c.get k f).1 = f k := by
  unfold Lru.get
  cases hf : c.entries.find? (fun p => decide (p.1 = k)) with
  | none => simp
  | some p =>
    have hm := List.mem_of_find?_eq_some hf
    have hp := List.find?_some hf
    rw [decide_eq_true_eq] at hp
    simp [h p hm, hp]

theorem lruGetInv {K V : Type} [DecidableEq K] (c : Lru K V) (k : K) (f : K → V)
    (h : ∀ p ∈ c.entries, p.2 = f p.1) :
    ∀ p ∈ (c.get k f).2.entries, p.2 = f p.1 := by
  unfold Lru.get
  cases hf : c.entries.find? (fun p => decide (p.1 = k)) with
  | none =>
    intro p hp
    simp only at hp
    have hp2 := List.mem_of_mem_take hp
    rw [List.mem_cons] at hp2
    rcases hp2 with hhd | htl
    · simp [hhd]
    · exact h p htl
  | some q =>
    intro p hp
    simp only at hp
    rw [List.mem_cons] at hp
    rcases hp with hhd | htl
    · have hm := List.mem_of_find?_eq_some hf
      have := h q hm
      simp [hhd, this]
    · exact h p (List.mem_of_mem_filter htl)

theorem goodInit : goodState initState := by
  constructor <;> intro p hp <;> simp [initState, emptyLru] at hp

/-- The stateful simple-strategy scanner returns the pure value and
preserves the invariant. -/
theorem findSimpleStSpec (s : EngineState) (t : Str) (kws : List Str)
    (h : goodState s) :
    (findKeywordsSimpleSt s t kws).1 = findKeywordsSimple t kws ∧
    goodState (findKeywordsSimpleSt s t kws).2 := by
  obtain ⟨h1, h2⟩ := h
  unfold findKeywordsSimpleSt
  refine ⟨?_, ?_, ?_⟩
  · exact lruGetVal _ _ _ h1
  · exact lruGetInv _ _ _ h1
  · exact h2

theorem findRegexStSpec (s : EngineState) (t : Str) (kws : List Str)
    (h : goodState s) :
    (findKeywordsRegexSt s t kws).1 = findKeywordsRegex t kws ∧
    goodState (findKeywordsRegexSt s t kws).2 := by
  obtain ⟨h1, h2⟩ := h
  unfold findKeywordsRegexSt findKeywordsRegex
  by_cases hk : kws.isEmpty
  · simp [hk]
    exact ⟨h1, h2⟩
  · simp only [hk, if_false, Bool.false_eq_true]
    refine ⟨?_, ?_, ?_⟩
    · exact lruGetVal _ _ _ h2
    · exact h1
    · exact lruGetInv _ _ _ h2

/-- The stateful `expr_match` computes the pure `exprMatch` value and
preserves the cache invariant. -/
theorem exprMatchStSpec (s : EngineState) (e v : Str) (h : goodState s) :
    (exprMatchSt s e v).1 = exprMatch e v ∧ goodState (exprMatchSt s e v).2 := by
  unfold exprMatchSt exprMatch
  by_cases hk : (dedupFirst (splitKws (stripWs e))).isEmpty
  · simp [hk, h]
  · simp only [hk, if_false, Bool.false_eq_true]
    by_cases hl : (dedupFirst (splitKws (stripWs e))).length ≤ 20
    · have := findSimpleStSpec s (lowerStr v) (dedupFirst (splitKws (stripWs e))) h
      simp [hl, this.1, this.2]
    · have := findRegexStSpec s (lowerStr v) (dedupFirst (splitKws (stripWs e))) h
      simp [hl, this.1, this.2]

/-- Claim C5: after every call to `invalidate_cache`, the generation
reported by the stats query strictly increases, and all three caches
(simple-scan, regex-scan, parsed-expression) report size 0. -/
theorem c5_thm (s : EngineState) :
    (getCacheInfo s).generation < (getCacheInfo (invalidateCache s)).generation ∧
    (getCacheInfo (invalidateCache s)).simpleSize = 0 ∧
    (getCacheInfo (invalidateCache s)).regexSize = 0 ∧
    (getCacheInfo (invalidateCache s)).exprSize = 0 := by
  refine ⟨?_, rfl, rfl, rfl⟩
  simp [getCacheInfo, invalidateCache]

/-- Claim C4, amended: `expr_match` never reads or writes the
parsed-expression cache — its full parse path calls the recursive-descent
`complex_expression` directly on every call, so the cache component of the
state is untouched by any call. -/
theorem c4_thm (s : EngineState) (e v : Str) :
    (exprMatchSt s e v).2.exprc = s.exprc := by
  unfold exprMatchSt
  by_cases hk : (dedupFirst (splitKws (stripWs e))).isEmpty
  · simp [hk]
  · by_cases hl : (dedupFirst (splitKws (stripWs e))).length ≤ 20
    · simp [hk, hl, findKeywordsSimpleSt]
    · simp only [hk, hl, if_false, Bool.false_eq_true]
      unfold findKeywordsRegexSt
      by_cases he : (dedupFirst (splitKws (stripWs e))).isEmpty <;> simp [he]

/-- Claim C4, counterexample: two consecutive full-parse-path calls of
`expr_match` on the expression `"(a)"` (which is neither a pure AND nor a
pure OR chain) leave the parsed-expression cache empty — no cache entry
for the expression exists under any generation, contradicting the claim
that the AST is obtained through the capacity-512 cache. -/
theorem c4_counterexample :
    ((exprMatchSt (exprMatchSt initState "(a)".toList "a".toList).2
        "(a)".toList "a".toList).2).exprc.entries = [] := by
  rfl

/-- Claim C9: from any state satisfying the cache invariant (which holds
initially and is preserved by every call), two successive `expr_match`
calls with the same expression and text, with no intervening
`invalidate_cache`, return equal results. -/
theorem c9_thm (s : EngineState) (e t : Str) (h : goodState s) :
    (exprMatchSt s e t).1 = (exprMatchSt (exprMatchSt s e t).2 e t).1 := by
  have h1 := exprMatchStSpec s e t h
  have h2 := exprMatchStSpec (exprMatchSt s e t).2 e t h1.2
  rw [h1.1, h2.1]

/-- Witness for C9 at a concrete input. -/
theorem c9_witness :
    (exprMatchSt initState "a".toList "ab".toList).1 =
      (exprMatchSt (exprMatchSt initState "a".toList "ab".toList).2
        "a".toList "ab".toList).1 :=
  c9_thm initState "a".toList "ab".toList goodInit

/-! ## Lemmas: association lists, counters and the scanners -/

theorem alookupAppend (m : Assoc) (k q : Str) (v : Nat) :
    alookup (m ++ [(k, v)]) q =
      match alookup m q with
      | some w => some w
      | none => if k = q then some v else none := by
  induction m with
  | nil => simp [alookup]
  | cons p rest ih =>
    unfold alookup
    by_cases hp : p.1 = q <;> simp [hp, ih]

theorem alookupSetMap (m : Assoc) (k q : Str) (v : Nat) :
    alookup (m.map (fun p => if p.1 = k then (p.1, v) else p)) q =
      match alookup m q with
      | some w => if q = k then some v else some w
      | none => none := by
  induction m with
  | nil => simp [alookup]
  | cons p rest ih =>
    have hkey : (if p.1 = k then (p.1, v) else p).1 = p.1 := by
      by_cases hk : p.1 = k <;> simp [hk]
    by_cases hp : p.1 = q
    · by_cases hk : p.1 = k
      · have hqk : q = k := by rw [← hp, hk]
        simp [alookup, hkey, hp, hk, hqk]
      · have hqk : ¬ q = k := by rw [← hp]; exact hk
        simp [alookup, hkey, hp, hk, hqk]
    · simp [alookup, hkey, hp, ih]

theorem alookupDictSetSelf (m : Assoc) (k : Str) (v : Nat) :
    alookup (dictSet m k v) k = some v := by
  unfold dictSet
  cases hl : alookup m k with
  | none => simp [alookupAppend, hl]
  | some w => simp [alookupSetMap, hl]

theorem alookupDictSetNe (m : Assoc) (k q : Str) (v : Nat) (h : q ≠ k) :
    alookup (dictSet m k v) q = alookup m q := by
  unfold dictSet
  cases hl : alookup m k with
  | none =>
    rw [alookupAppend]
    cases hq : alookup m q with
    | some w => simp
    | none => simp [Ne.symm h]
  | some w =>
    rw [alookupSetMap]
    cases hq : alookup m q with
    | some u => simp [h]
    | none => simp

theorem alookupCounterInsSelf (m : Assoc) (x : Str) :
    alookup (counterIns m x) x = some ((alookup m x).getD 0 + 1) := by
  unfold counterIns
  cases hl : alookup m x with
  | none => simp [alookupAppend, hl]
  | some n => simp [alookupSetMap, hl]

theorem alookupCounterInsNe (m : Assoc) (x q : Str) (h : q ≠ x) :
    alookup (counterIns m x) q = alookup m q := by
  unfold counterIns
  cases hl : alookup m x with
  | none =>
    rw [alookupAppend]
    cases hq : alookup m q with
    | some w => simp
    | none => simp [Ne.symm h]
  | some n =>
    rw [alookupSetMap]
    cases hq : alookup m q with
    | some u => simp [h]
    | none => simp

/-- Characterisation of the `Counter` tally: lookup in `counterAux acc l`
adds the multiplicity of the key in `l` to whatever `acc` already holds. -/
theorem alookupCounterAux (l : List Str) (acc : Assoc) (q : Str) :
    alookup (counterAux acc l) q =
      match alookup acc q with
      | some n => some (n + l.count q)
      | none => if 0 < l.count q then some (l.count q) else none := by
  induction l generalizing acc with
  | nil =>
    cases h : alookup acc q <;> simp [counterAux, h]
  | cons x xs ih =>
    unfold counterAux
    rw [ih]
    by_cases hx : q = x
    · subst hx
      rw [alookupCounterInsSelf]
      cases h : alookup acc q <;> simp [h, List.count_cons] <;> omega
    · rw [alookupCounterInsNe _ _ _ hx]
      have hcnt : (x :: xs).count q = xs.count q := by
        simp [List.count_cons, Ne.symm hx]
      rw [hcnt]

theorem alookupPyCounter (l : List Str) (q : Str) :
    alookup (pyCounter l) q =
      if 0 < l.count q then some (l.count q) else none := by
  unfold pyCounter
  rw [alookupCounterAux]
  simp [alookup]

/-- Characterisation of the simple scanner: the lookup of `q` succeeds with
value `pyCount tl q` exactly when some keyword lowercases to `q` and the
count is positive; otherwise the accumulator decides. -/
theorem alookupFindSimpleAux (tl : Str) (ks : List Str) (acc : Assoc) (q : Str) :
    alookup (findSimpleAux tl ks acc) q =
      if (∃ k ∈ ks, lowerStr k = q) ∧ 0 < pyCount tl q then some (pyCount tl q)
      else alookup acc q := by
  induction ks generalizing acc with
  | nil => simp [findSimpleAux]
  | cons k ks ih =>
    unfold findSimpleAux
    simp only
    rw [ih]
    by_cases hfull : (∃ x ∈ k :: ks, lowerStr x = q) ∧ 0 < pyCount tl q
    · rw [if_pos hfull]
      by_cases hrest : (∃ x ∈ ks, lowerStr x = q) ∧ 0 < pyCount tl q
      · rw [if_pos hrest]
      · rw [if_neg hrest]
        have hq : lowerStr k = q := by
          rcases hfull.1 with ⟨x, hx, hxq⟩
          rcases List.mem_cons.1 hx with rfl | hx2
          · exact hxq
          · exact absurd ⟨⟨x, hx2, hxq⟩, hfull.2⟩ hrest
        have hc : 0 < pyCount tl (lowerStr k) := by rw [hq]; exact hfull.2
        rw [if_pos hc, hq]
        exact alookupDictSetSelf acc q (pyCount tl q)
    · rw [if_neg hfull]
      have hrest : ¬ ((∃ x ∈ ks, lowerStr x = q) ∧ 0 < pyCount tl q) := by
        rintro ⟨⟨x, hx, hxq⟩, hc2⟩
        exact hfull ⟨⟨x, List.mem_cons_of_mem k hx, hxq⟩, hc2⟩
      rw [if_neg hrest]
      by_cases hc : 0 < pyCount tl (lowerStr k)
      · rw [if_pos hc]
        have hq : ¬ q = lowerStr k := by
          intro hh
          refine hfull ⟨⟨k, List.mem_cons_self k ks, hh.symm⟩, ?_⟩
          rw [hh]; exact hc
        exact alookupDictSetNe acc (lowerStr k) q (pyCount tl (lowerStr k)) hq
      · rw [if_neg hc]

theorem memInsSorted (x y : Str) (l : List Str) :
    y ∈ insSorted x l ↔ y = x ∨ y ∈ l := by
  induction l with
  | nil => simp [insSorted]
  | cons z zs ih =>
    unfold insSorted
    by_cases h : strLe x z = true
    · rw [if_pos h, List.mem_cons, List.mem_cons]
    · rw [if_neg h, List.mem_cons, ih, List.mem_cons]
      tauto

theorem memSortStrs (x : Str) (l : List Str) : x ∈ sortStrs l ↔ x ∈ l := by
  induction l with
  | nil => simp [sortStrs]
  | cons y ys ih =>
    unfold sortStrs at ih ⊢
    rw [List.foldr_cons, memInsSorted, ih, List.mem_cons]

theorem sortStrsLength (l : List Str) : (sortStrs l).length = l.length := by
  have hins : ∀ (x : Str) (m : List Str), (insSorted x m).length = m.length + 1 := by
    intro x m
    induction m with
    | nil => simp [insSorted]
    | cons z zs ih =>
      unfold insSorted
      by_cases h : strLe x z = true
      · rw [if_pos h]; simp
      · rw [if_neg h]; simp [ih]
  induction l with
  | nil => simp [sortStrs]
  | cons y ys ih =>
    unfold sortStrs at ih ⊢
    rw [List.foldr_cons, hins, ih, List.length_cons]

theorem singletonOfLen (a : Str) (h : a.length = 1) : ∃ d, a = [d] := by
  cases a with
  | nil => simp at h
  | cons d a2 =>
    cases a2 with
    | nil => exact ⟨d, rfl⟩
    | cons e a3 => simp at h

theorem pyCountAuxChar (c : Char) (f : Nat) :
    ∀ t : Str, t.length < f → pyCountAux f t [c] = t.count c := by
  induction f with
  | zero => intro t ht; omega
  | succ f ih =>
    intro t ht
    cases t with
    | nil => simp [pyCountAux, List.isPrefixOf]
    | cons d rest =>
      have hlt : rest.length < f := by
        simp only [List.length_cons] at ht; omega
      by_cases hcd : c = d
      · subst hcd
        have hpre : ([c] : Str).isPrefixOf (c :: rest) = true := by
          simp [List.isPrefixOf]
        unfold pyCountAux
        rw [if_pos hpre]
        have hdrop : (c :: rest).drop ([c] : Str).length = rest := by simp
        rw [hdrop, ih rest hlt]
        simp [List.count_cons, Nat.add_comm]
      · have hdc2 : ¬ d = c := fun hh => hcd hh.symm
        have hpre : ¬ (([c] : Str).isPrefixOf (d :: rest) = true) := by
          simp [List.isPrefixOf]
          exact hcd
        unfold pyCountAux
        rw [if_neg hpre]
        show pyCountAux f rest [c] = _
        rw [ih rest hlt]
        simp [List.count_cons, hcd, hdc2]

theorem tryAltsNilChar (alts : List Str) (h : ∀ a ∈ alts, a.length = 1) :
    tryAlts alts [] = none := by
  induction alts with
  | nil => rfl
  | cons a alts ih =>
    obtain ⟨d, rfl⟩ := singletonOfLen a (h _ (List.mem_cons_self _ alts))
    unfold tryAlts at ih ⊢
    rw [List.find?_cons_of_neg _ (by simp [List.isPrefixOf])]
    exact ih (fun x hx => h x (List.mem_cons_of_mem _ hx))

theorem tryAltsChar (alts : List Str) (c : Char) (rest : Str)
    (h : ∀ a ∈ alts, a.length = 1) :
    tryAlts alts (c :: rest) = if [c] ∈ alts then some [c] else none := by
  induction alts with
  | nil => rfl
  | cons a alts ih =>
    obtain ⟨d, rfl⟩ := singletonOfLen a (h _ (List.mem_cons_self _ alts))
    have hrest : ∀ x ∈ alts, x.length = 1 := fun x hx => h x (List.mem_cons_of_mem _ hx)
    by_cases hdc : d = c
    · subst hdc
      unfold tryAlts
      rw [List.find?_cons_of_pos _ (by simp [List.isPrefixOf])]
      rw [if_pos (List.mem_cons_self _ _)]
    · unfold tryAlts at ih ⊢
      rw [List.find?_cons_of_neg _ (by simp [List.isPrefixOf]; exact hdc)]
      rw [ih hrest]
      by_cases hm : [c] ∈ alts
      · rw [if_pos hm, if_pos (List.mem_cons_of_mem _ hm)]
      · have hnot : ¬ ([c] ∈ ([d] : Str) :: alts) := by
          rw [List.mem_cons]
          rintro (he | hm2)
          · have hcd2 : c = d := by injection he
            exact hdc hcd2.symm
          · exact hm hm2
        rw [if_neg hm, if_neg hnot]

/-- Structural unfolding of the `findall` scan at positive fuel. -/
theorem reFindAllAuxSucc (f : Nat) (ks : List Str) (t : Str) :
    reFindAllAux (f + 1) ks t =
      match tryAlts ks t with
      | some k =>
        if k.isEmpty then
          match t with
          | [] => [[]]
          | _ :: rest => [] :: reFindAllAux f ks rest
        else k :: reFindAllAux f ks (t.drop k.length)
      | none =>
        match t with
        | [] => []
        | _ :: rest => reFindAllAux f ks rest := rfl

theorem reFindAllChar (alts : List Str) (h : ∀ a ∈ alts, a.length = 1) (f : Nat) :
    ∀ t : Str, t.length < f →
      reFindAllAux f alts t =
        (t.filter (fun c => decide ([c] ∈ alts))).map (fun c => [c]) := by
  induction f with
  | zero => intro t ht; omega
  | succ f ih =>
    intro t ht
    rw [reFindAllAuxSucc]
    cases t with
    | nil =>
      rw [tryAltsNilChar alts h]
      rfl
    | cons c rest =>
      have hlt : rest.length < f := by
        simp only [List.length_cons] at ht; omega
      rw [tryAltsChar alts c rest h]
      by_cases hm : [c] ∈ alts
      · rw [if_pos hm]
        simp only [List.isEmpty_cons, Bool.false_eq_true, if_false,
          List.length_cons, List.length_nil, List.drop_succ_cons, List.drop_zero]
        rw [ih rest hlt]
        simp [List.filter_cons, hm]
      · rw [if_neg hm]
        simp only
        rw [ih rest hlt]
        simp [List.filter_cons, hm]

theorem flattenMapSingleton (l : List Char) :
    (l.map (fun c => [c])).flatten = l := by
  induction l with
  | nil => rfl
  | cons c cs ih => simp [ih]

theorem countMapSingletonChar (l : List Char) (c : Char) :
    (l.map (fun c => [c])).count [c] = l.count c := by
  induction l with
  | nil => rfl
  | cons d ds ih =>
    simp only [List.map_cons, List.count_cons, ih]
    by_cases hdc : d = c
    · simp [hdc]
    · have hcd : ¬ c = d := fun hh => hdc hh.symm
      have hs : ¬ ([c] : Str) = [d] := by
        intro hh
        exact hcd (by injection hh)
      simp [hdc, hcd, hs]

theorem countMapSingletonNot (l : List Char) (q : Str) (h : ∀ c : Char, q ≠ [c]) :
    (l.map (fun c => [c])).count q = 0 := by
  induction l with
  | nil => rfl
  | cons d ds ih =>
    simp only [List.map_cons, List.count_cons, ih]
    simp [h d, Ne.symm (h d)]

theorem countFilterPos (l : List Char) (P : Char → Bool) (c : Char) (h : P c = true) :
    (l.filter P).count c = l.count c := by
  induction l with
  | nil => rfl
  | cons d ds ih =>
    rw [List.filter_cons]
    by_cases hd : P d = true
    · simp only [hd, if_true, List.count_cons, ih]
    · have hdc : ¬ c = d := by
        intro hh; rw [hh] at h; exact hd h
      have hdc2 : ¬ d = c := fun hh => hdc hh.symm
      simp only [hd, Bool.false_eq_true, if_false, ih, List.count_cons]
      simp [hdc, hdc2]

theorem countFilterNeg (l : List Char) (P : Char → Bool) (c : Char) (h : P c = false) :
    (l.filter P).count c = 0 := by
  induction l with
  | nil => rfl
  | cons d ds ih =>
    rw [List.filter_cons]
    by_cases hd : P d = true
    · have hdc : ¬ c = d := by
        intro hh; rw [hh] at h; rw [h] at hd; exact Bool.false_ne_true hd
      have hdc2 : ¬ d = c := fun hh => hdc hh.symm
      simp only [hd, if_true, List.count_cons, ih]
      simp [hdc, hdc2]
    · simp only [hd, Bool.false_eq_true, if_false, ih]

theorem pyCountChar (tl : Str) (c : Char) : pyCount tl [c] = tl.count c := by
  unfold pyCount
  simp only [List.isEmpty_cons, Bool.false_eq_true, if_false]
  exact pyCountAuxChar c (tl.length + 1) tl (Nat.lt_succ_self _)

/-- Lookup characterisation of `find_keywords_simple`, for any keyword set. -/
theorem alookupSimpleAny (t : Str) (ks : List Str) (q : Str) :
    alookup (findKeywordsSimple t ks) q =
      if (∃ k ∈ ks, lowerStr k = q) ∧ 0 < pyCount (lowerStr t) q then
        some (pyCount (lowerStr t) q)
      else none := by
  unfold findKeywordsSimple findSimpleCore
  rw [alookupFindSimpleAux]
  have hiff : (∃ k ∈ sortStrs ks, lowerStr k = q) ↔ (∃ k ∈ ks, lowerStr k = q) := by
    constructor
    · rintro ⟨k, hk, hkq⟩
      exact ⟨k, (memSortStrs k ks).mp hk, hkq⟩
    · rintro ⟨k, hk, hkq⟩
      exact ⟨k, (memSortStrs k ks).mpr hk, hkq⟩
  by_cases hcond : (∃ k ∈ ks, lowerStr k = q) ∧ 0 < pyCount (lowerStr t) q
  · rw [if_pos hcond, if_pos ⟨hiff.mpr hcond.1, hcond.2⟩]
  · rw [if_neg hcond, if_neg (fun hh => hcond ⟨hiff.mp hh.1, hh.2⟩)]
    rfl

/-- Lookup characterisation of `find_keywords_regex` when every keyword is
a single character: it coincides with the simple strategy. -/
theorem alookupRegexChar (t : Str) (ks : List Str) (h : ∀ k ∈ ks, k.length = 1)
    (q : Str) :
    alookup (findKeywordsRegex t ks) q =
      if (∃ k ∈ ks, lowerStr k = q) ∧ 0 < pyCount (lowerStr t) q then
        some (pyCount (lowerStr t) q)
      else none := by
  by_cases hne : ks.isEmpty
  · have hks : ks = [] := by
      cases ks with
      | nil => rfl
      | cons a l => simp [List.isEmpty_cons] at hne
    subst hks
    simp [findKeywordsRegex, alookup]
  · have hks2 : ks ≠ [] := by
      intro hh; rw [hh] at hne; exact hne rfl
    have hss2 : sortStrs ks ≠ [] := by
      intro hh
      have hl := sortStrsLength ks
      rw [hh] at hl
      simp only [List.length_nil] at hl
      exact hks2 (List.length_eq_zero.mp hl.symm)
    unfold findKeywordsRegex
    rw [if_neg hne]
    unfold findRegexCore
    rw [if_neg (fun hh => hss2 (List.isEmpty_iff.mp hh))]
    simp only
    have halts : ∀ a ∈ (sortStrs ks).map lowerStr, a.length = 1 := by
      intro a ha
      rcases List.mem_map.mp ha with ⟨k, hk, rfl⟩
      have hk1 : k.length = 1 := h k ((memSortStrs k ks).mp hk)
      simpa [lowerStr] using hk1
    rw [reFindAllChar _ halts _ _ (Nat.lt_succ_self _)]
    have hmemiff : ∀ c : Char,
        ([c] ∈ (sortStrs ks).map lowerStr) ↔ (∃ k ∈ ks, lowerStr k = [c]) := by
      intro c
      rw [List.mem_map]
      constructor
      · rintro ⟨k, hk, hkq⟩
        exact ⟨k, (memSortStrs k ks).mp hk, hkq⟩
      · rintro ⟨k, hk, hkq⟩
        exact ⟨k, (memSortStrs k ks).mpr hk, hkq⟩
    have hflat :
        (if (sortStrs ks).length = 1 then
            (((lowerStr t).filter
                (fun c => decide ([c] ∈ (sortStrs ks).map lowerStr))).map
              (fun c => [c])).flatten.map (fun c => [c])
          else
            (((lowerStr t).filter
                (fun c => decide ([c] ∈ (sortStrs ks).map lowerStr))).map
              (fun c => [c])).filter (fun m => !m.isEmpty)) =
          ((lowerStr t).filter
              (fun c => decide ([c] ∈ (sortStrs ks).map lowerStr))).map
            (fun c => [c]) := by
      by_cases h1 : (sortStrs ks).length = 1
      · rw [if_pos h1, flattenMapSingleton]
      · rw [if_neg h1]
        apply List.filter_eq_self.mpr
        intro m hm
        rcases List.mem_map.mp hm with ⟨c, _, rfl⟩
        simp
    rw [hflat, alookupPyCounter]
    by_cases hq : ∃ c : Char, q = [c]
    · obtain ⟨c, rfl⟩ := hq
      by_cases hmem : [c] ∈ (sortStrs ks).map lowerStr
      · have hcount :
            (((lowerStr t).filter
                (fun c => decide ([c] ∈ (sortStrs ks).map lowerStr))).map
              (fun c => [c])).count [c] = (lowerStr t).count c := by
          rw [countMapSingletonChar]
          exact countFilterPos _ _ _ (by simp [hmem])
        rw [hcount, pyCountChar]
        have hex : ∃ k ∈ ks, lowerStr k = [c] := (hmemiff c).mp hmem
        by_cases hpos : 0 < (lowerStr t).count c
        · rw [if_pos hpos, if_pos ⟨hex, hpos⟩]
        · rw [if_neg hpos, if_neg (fun hh => hpos hh.2)]
      · have hcount :
            (((lowerStr t).filter
                (fun c => decide ([c] ∈ (sortStrs ks).map lowerStr))).map
              (fun c => [c])).count [c] = 0 := by
          rw [countMapSingletonChar]
          exact countFilterNeg _ _ _ (by simp [hmem])
        rw [hcount]
        have hnex : ¬ ((∃ k ∈ ks, lowerStr k = [c]) ∧ 0 < pyCount (lowerStr t) [c]) := by
          rintro ⟨hex, _⟩
          exact hmem ((hmemiff c).mpr hex)
        rw [if_neg (by omega : ¬ (0 < (0 : Nat))), if_neg hnex]
    · have hcount :
          (((lowerStr t).filter
              (fun c => decide ([c] ∈ (sortStrs ks).map lowerStr))).map
            (fun c => [c])).count q = 0 := by
        apply countMapSingletonNot
        intro c hc
        exact hq ⟨c, hc⟩
      rw [hcount]
      have hnex : ¬ ((∃ k ∈ ks, lowerStr k = q) ∧ 0 < pyCount (lowerStr t) q) := by
        rintro ⟨⟨k, hk, hkq⟩, _⟩
        obtain ⟨d, rfl⟩ := singletonOfLen k (h k hk)
        exact hq ⟨Char.toLower d, hkq.symm⟩
      rw [if_neg (by omega : ¬ (0 < (0 : Nat))), if_neg hnex]

/-- Claim C1, counterexample: on keywords `{"a", "ab"}` (one a substring of
the other) and text `"ab"`, the simple strategy maps `"ab"` to 1 but the
regex strategy has no entry for `"ab"` at all (the alternation consumes the
leading `"a"` first), so the two mappings are not identical. -/
theorem c1_counterexample :
    alookup (findKeywordsSimple "ab".toList ["a".toList, "ab".toList]) "ab".toList
        = some 1 ∧
      alookup (findKeywordsRegex "ab".toList ["a".toList, "ab".toList]) "ab".toList
        = none :=
  ⟨rfl, rfl⟩

/-- Claim C1, amended: the simple strategy and the regex strategy produce
identical keyword-to-count mappings whenever every keyword is a single
character; with multi-character keywords they can disagree, both when one
keyword is a substring (prefix) of another or their occurrences overlap,
and even for a single multi-character keyword, where the regex path's
flattening tallies the individual characters of each match. -/
theorem c1_thm (ks : List Str) (t : Str) (h : ∀ k ∈ ks, k.length = 1)
    (q : Str) :
    alookup (findKeywordsSimple t ks) q = alookup (findKeywordsRegex t ks) q := by
  rw [alookupSimpleAny, alookupRegexChar t ks h]

/-- Witness for C1 at a concrete single-character keyword set. -/
theorem c1_witness :
    alookup (findKeywordsSimple "abcab".toList [['a'], ['b']]) ['a'] =
      alookup (findKeywordsRegex "abcab".toList [['a'], ['b']]) ['a'] :=
  c1_thm [['a'], ['b']] "abcab".toList (by decide) ['a']

/-! ## Lemmas: words, keyword extraction and operator membership -/

theorem validWordNe (w : Str) (h : validWord w) : w ≠ [] := by
  unfold validWord validWordB at h
  intro hh
  subst hh
  simp at h

theorem validWordKw (w : Str) (h : validWord w) : ∀ c ∈ w, isKwChar c = true := by
  unfold validWord validWordB at h
  rw [Bool.and_eq_true, List.all_eq_true] at h
  intro c hc
  have := h.2 c hc
  unfold validChar at this
  rw [Bool.and_eq_true] at this
  exact this.1

theorem validWordNoWs (w : Str) (h : validWord w) :
    ∀ c ∈ w, c.isWhitespace = false := by
  unfold validWord validWordB at h
  rw [Bool.and_eq_true, List.all_eq_true] at h
  intro c hc
  have := h.2 c hc
  unfold validChar at this
  rw [Bool.and_eq_true] at this
  simpa using this.2

theorem stripWsId (s : Str) (h : ∀ c ∈ s, c.isWhitespace = false) :
    stripWs s = s := by
  unfold stripWs
  apply List.filter_eq_self.mpr
  intro a ha
  simp [h a ha]

theorem splitKwsNil : splitKws [] = [] := rfl

theorem takeWhileWord (w rest : Str) (hw : ∀ c ∈ w, isKwChar c = true)
    (hr : headKw rest = false) :
    (w ++ rest).takeWhile isKwChar = w ∧ (w ++ rest).dropWhile isKwChar = rest := by
  induction w with
  | nil =>
    simp only [List.nil_append]
    cases rest with
    | nil => simp
    | cons r rs =>
      have hr2 : isKwChar r = false := hr
      simp [List.takeWhile_cons, List.dropWhile_cons, hr2]
  | cons c w2 ih =>
    have hc : isKwChar c = true := hw c (List.mem_cons_self _ _)
    have hw2 : ∀ x ∈ w2, isKwChar x = true := fun x hx => hw x (List.mem_cons_of_mem _ hx)
    have := ih hw2
    simp [List.takeWhile_cons, List.dropWhile_cons, hc, this.1, this.2]

theorem splitKwsDelim (d : Char) (rest : Str) (hd : isKwChar d = false) :
    splitKws (d :: rest) = splitKws rest := by
  conv_lhs => rw [splitKws.eq_def]
  simp [hd]

theorem splitKwsWord (w rest : Str) (hw : w ≠ [])
    (hkw : ∀ c ∈ w, isKwChar c = true) (hr : headKw rest = false) :
    splitKws (w ++ rest) = w :: splitKws rest := by
  induction w with
  | nil => exact absurd rfl hw
  | cons c w2 ih =>
    have hc : isKwChar c = true := hkw c (List.mem_cons_self _ _)
    have hw2 : ∀ x ∈ w2, isKwChar x = true := fun x hx => hkw x (List.mem_cons_of_mem _ hx)
    cases w2 with
    | nil =>
      simp only [List.singleton_append]
      conv_lhs => rw [splitKws.eq_def]
      cases rest with
      | nil => simp [hc, splitKwsNil]
      | cons r rs =>
        have hr2 : isKwChar r = false := hr
        simp [hc, hr2]
    | cons d w3 =>
      have hd : isKwChar d = true := hw2 d (List.mem_cons_self _ _)
      have hih := ih (by simp) hw2
      simp only [List.cons_append] at hih ⊢
      conv_lhs => rw [splitKws.eq_def]
      simp only [hc, if_true]
      rw [hih]
      simp [hd]

theorem headKwPlusChain (ws : List Str) : headKw (plusChain ws) = false := by
  cases ws <;> rfl

theorem headKwBarChain (ws : List Str) : headKw (barChain ws) = false := by
  cases ws <;> rfl

theorem splitKwsPlusChain (ws : List Str) (h : ∀ w ∈ ws, validWord w) :
    splitKws (plusChain ws) = ws := by
  induction ws with
  | nil => rfl
  | cons w ws ih =>
    have hv : validWord w := h w (List.mem_cons_self _ _)
    have hrest : ∀ x ∈ ws, validWord x := fun x hx => h x (List.mem_cons_of_mem _ hx)
    show splitKws ('+' :: (w ++ plusChain ws)) = w :: ws
    rw [splitKwsDelim '+' _ (by decide),
      splitKwsWord w _ (validWordNe w hv) (validWordKw w hv) (headKwPlusChain ws),
      ih hrest]

theorem splitKwsAndChain (ws : List Str) (h : ∀ w ∈ ws, validWord w)
    (hne : ws ≠ []) : splitKws (andChainStr ws) = ws := by
  cases ws with
  | nil => exact absurd rfl hne
  | cons w ws =>
    have hv : validWord w := h w (List.mem_cons_self _ _)
    have hrest : ∀ x ∈ ws, validWord x := fun x hx => h x (List.mem_cons_of_mem _ hx)
    show splitKws (w ++ plusChain ws) = w :: ws
    rw [splitKwsWord w _ (validWordNe w hv) (validWordKw w hv) (headKwPlusChain ws),
      splitKwsPlusChain ws hrest]

theorem splitKwsBarChain (ws : List Str) (h : ∀ w ∈ ws, validWord w) :
    splitKws (barChain ws) = ws := by
  induction ws with
  | nil => rfl
  | cons w ws ih =>
    have hv : validWord w := h w (List.mem_cons_self _ _)
    have hrest : ∀ x ∈ ws, validWord x := fun x hx => h x (List.mem_cons_of_mem _ hx)
    show splitKws ('|' :: (w ++ barChain ws)) = w :: ws
    rw [splitKwsDelim '|' _ (by decide),
      splitKwsWord w _ (validWordNe w hv) (validWordKw w hv) (headKwBarChain ws),
      ih hrest]

theorem splitKwsOrChain (ws : List Str) (h : ∀ w ∈ ws, validWord w)
    (hne : ws ≠ []) : splitKws (orChainStr ws) = ws := by
  cases ws with
  | nil => exact absurd rfl hne
  | cons w ws =>
    have hv : validWord w := h w (List.mem_cons_self _ _)
    have hrest : ∀ x ∈ ws, validWord x := fun x hx => h x (List.mem_cons_of_mem _ hx)
    show splitKws (w ++ barChain ws) = w :: ws
    rw [splitKwsWord w _ (validWordNe w hv) (validWordKw w hv) (headKwBarChain ws),
      splitKwsBarChain ws hrest]

theorem hasCharEqMem (s : Str) (c : Char) : hasChar s c = decide (c ∈ s) := by
  induction s with
  | nil => simp [hasChar]
  | cons d rest ih =>
    unfold hasChar
    rw [ih]
    by_cases hdc : d = c
    · simp [hdc]
    · have h2 : ¬ c = d := fun hh => hdc hh.symm
      simp [hdc, h2]

theorem memPlusChain (ws : List Str) (c : Char) :
    c ∈ plusChain ws ↔ (c = '+' ∧ ws ≠ []) ∨ ∃ w ∈ ws, c ∈ w := by
  induction ws with
  | nil => simp [plusChain]
  | cons w ws ih =>
    show c ∈ '+' :: (w ++ plusChain ws) ↔ _
    rw [List.mem_cons, List.mem_append, ih]
    constructor
    · rintro (h | h | ⟨h, _⟩ | h)
      · exact Or.inl ⟨h, by simp⟩
      · exact Or.inr ⟨w, List.mem_cons_self _ _, h⟩
      · exact Or.inl ⟨h, by simp⟩
      · rcases h with ⟨x, hx, hcx⟩
        exact Or.inr ⟨x, List.mem_cons_of_mem _ hx, hcx⟩
    · rintro (⟨h, _⟩ | ⟨x, hx, hcx⟩)
      · exact Or.inl h
      · rcases List.mem_cons.mp hx with rfl | hx2
        · exact Or.inr (Or.inl hcx)
        · exact Or.inr (Or.inr (Or.inr ⟨x, hx2, hcx⟩))

theorem memAndChain (ws : List Str) (c : Char) (hne : ws ≠ []) :
    c ∈ andChainStr ws ↔ (c = '+' ∧ 2 ≤ ws.length) ∨ ∃ w ∈ ws, c ∈ w := by
  cases ws with
  | nil => exact absurd rfl hne
  | cons w ws =>
    show c ∈ w ++ plusChain ws ↔ _
    rw [List.mem_append, memPlusChain]
    constructor
    · rintro (h | ⟨h, hne2⟩ | ⟨x, hx, hcx⟩)
      · exact Or.inr ⟨w, List.mem_cons_self _ _, h⟩
      · refine Or.inl ⟨h, ?_⟩
        cases ws with
        | nil => exact absurd rfl hne2
        | cons b bs => simp only [List.length_cons]; omega
      · exact Or.inr ⟨x, List.mem_cons_of_mem _ hx, hcx⟩
    · rintro (⟨h, hlen⟩ | ⟨x, hx, hcx⟩)
      · refine Or.inr (Or.inl ⟨h, ?_⟩)
        intro hh
        rw [hh] at hlen
        simp at hlen
      · rcases List.mem_cons.mp hx with rfl | hx2
        · exact Or.inl hcx
        · exact Or.inr (Or.inr ⟨x, hx2, hcx⟩)

theorem memBarChain (ws : List Str) (c : Char) :
    c ∈ barChain ws ↔ (c = '|' ∧ ws ≠ []) ∨ ∃ w ∈ ws, c ∈ w := by
  induction ws with
  | nil => simp [barChain]
  | cons w ws ih =>
    show c ∈ '|' :: (w ++ barChain ws) ↔ _
    rw [List.mem_cons, List.mem_append, ih]
    constructor
    · rintro (h | h | ⟨h, _⟩ | h)
      · exact Or.inl ⟨h, by simp⟩
      · exact Or.inr ⟨w, List.mem_cons_self _ _, h⟩
      · exact Or.inl ⟨h, by simp⟩
      · rcases h with ⟨x, hx, hcx⟩
        exact Or.inr ⟨x, List.mem_cons_of_mem _ hx, hcx⟩
    · rintro (⟨h, _⟩ | ⟨x, hx, hcx⟩)
      · exact Or.inl h
      · rcases List.mem_cons.mp hx with rfl | hx2
        · exact Or.inr (Or.inl hcx)
        · exact Or.inr (Or.inr (Or.inr ⟨x, hx2, hcx⟩))

theorem memOrChain (ws : List Str) (c : Char) (hne : ws ≠ []) :
    c ∈ orChainStr ws ↔ (c = '|' ∧ 2 ≤ ws.length) ∨ ∃ w ∈ ws, c ∈ w := by
  cases ws with
  | nil => exact absurd rfl hne
  | cons w ws =>
    show c ∈ w ++ barChain ws ↔ _
    rw [List.mem_append, memBarChain]
    constructor
    · rintro (h | ⟨h, hne2⟩ | ⟨x, hx, hcx⟩)
      · exact Or.inr ⟨w, List.mem_cons_self _ _, h⟩
      · refine Or.inl ⟨h, ?_⟩
        cases ws with
        | nil => exact absurd rfl hne2
        | cons b bs => simp only [List.length_cons]; omega
      · exact Or.inr ⟨x, List.mem_cons_of_mem _ hx, hcx⟩
    · rintro (⟨h, hlen⟩ | ⟨x, hx, hcx⟩)
      · refine Or.inr (Or.inl ⟨h, ?_⟩)
        intro hh
        rw [hh] at hlen
        simp at hlen
      · rcases List.mem_cons.mp hx with rfl | hx2
        · exact Or.inl hcx
        · exact Or.inr (Or.inr ⟨x, hx2, hcx⟩)

/-- A character that is not a keyword character does not occur in a valid
word. -/
theorem notMemValidWord (w : Str) (hv : validWord w) (c : Char)
    (hc : isKwChar c = false) : ¬ c ∈ w := by
  intro hmem
  have := validWordKw w hv c hmem
  rw [hc] at this
  exact Bool.false_ne_true this

theorem hasCharAndChainFalse (ws : List Str) (hv : ∀ w ∈ ws, validWord w)
    (hne : ws ≠ []) (c : Char) (hc : isKwChar c = false) (hplus : c ≠ '+') :
    hasChar (andChainStr ws) c = false := by
  rw [hasCharEqMem]
  simp only [decide_eq_false_iff_not]
  rw [memAndChain ws c hne]
  rintro (⟨h, _⟩ | ⟨x, hx, hcx⟩)
  · exact hplus h
  · exact notMemValidWord x (hv x hx) c hc hcx

theorem hasCharAndChainPlus (ws : List Str) (h2 : 2 ≤ ws.length) :
    hasChar (andChainStr ws) '+' = true := by
  have hne : ws ≠ [] := by
    intro hh; rw [hh] at h2; simp at h2
  rw [hasCharEqMem]
  simp only [decide_eq_true_eq]
  rw [memAndChain ws '+' hne]
  exact Or.inl ⟨rfl, h2⟩

theorem hasCharOrChainFalse (ws : List Str) (hv : ∀ w ∈ ws, validWord w)
    (hne : ws ≠ []) (c : Char) (hc : isKwChar c = false) (hbar : c ≠ '|') :
    hasChar (orChainStr ws) c = false := by
  rw [hasCharEqMem]
  simp only [decide_eq_false_iff_not]
  rw [memOrChain ws c hne]
  rintro (⟨h, _⟩ | ⟨x, hx, hcx⟩)
  · exact hbar h
  · exact notMemValidWord x (hv x hx) c hc hcx

theorem hasCharOrChainBar (ws : List Str) (h2 : 2 ≤ ws.length) :
    hasChar (orChainStr ws) '|' = true := by
  have hne : ws ≠ [] := by
    intro hh; rw [hh] at h2; simp at h2
  rw [hasCharEqMem]
  simp only [decide_eq_true_eq]
  rw [memOrChain ws '|' hne]
  exact Or.inl ⟨rfl, h2⟩

theorem hasCharWordFalse (w : Str) (hv : validWord w) (c : Char)
    (hc : isKwChar c = false) : hasChar w c = false := by
  rw [hasCharEqMem]
  simp only [decide_eq_false_iff_not]
  exact notMemValidWord w hv c hc

theorem noWsAndChain (ws : List Str) (hv : ∀ w ∈ ws, validWord w)
    (hne : ws ≠ []) : ∀ c ∈ andChainStr ws, c.isWhitespace = false := by
  intro c hc
  rw [memAndChain ws c hne] at hc
  rcases hc with ⟨rfl, _⟩ | ⟨x, hx, hcx⟩
  · decide
  · exact validWordNoWs x (hv x hx) c hcx

theorem noWsOrChain (ws : List Str) (hv : ∀ w ∈ ws, validWord w)
    (hne : ws ≠ []) : ∀ c ∈ orChainStr ws, c.isWhitespace = false := by
  intro c hc
  rw [memOrChain ws c hne] at hc
  rcases hc with ⟨rfl, _⟩ | ⟨x, hx, hcx⟩
  · decide
  · exact validWordNoWs x (hv x hx) c hcx

theorem memWrapParens (n : Nat) (w : Str) (c : Char) :
    c ∈ wrapParens n w ↔ c ∈ w ∨ (n ≠ 0 ∧ (c = '(' ∨ c = ')')) := by
  unfold wrapParens
  rw [List.append_assoc, List.mem_append, List.mem_append,
    List.mem_replicate, List.mem_replicate]
  tauto

theorem noWsWrap (n : Nat) (w : Str) (hv : validWord w) :
    ∀ c ∈ wrapParens n w, c.isWhitespace = false := by
  intro c hc
  rw [memWrapParens] at hc
  rcases hc with hc | ⟨_, rfl | rfl⟩
  · exact validWordNoWs w hv c hc
  · decide
  · decide

theorem hasCharWrapFalse (n : Nat) (w : Str) (hv : validWord w) (c : Char)
    (hc : isKwChar c = false) (h1 : c ≠ '(') (h2 : c ≠ ')') :
    hasChar (wrapParens n w) c = false := by
  rw [hasCharEqMem]
  simp only [decide_eq_false_iff_not]
  rw [memWrapParens]
  rintro (hm | ⟨_, rfl | rfl⟩)
  · exact notMemValidWord w hv c hc hm
  · exact h1 rfl
  · exact h2 rfl

/-! ## Lemmas: the recursive-descent parser on chain-shaped inputs -/

theorem parseTermESucc (f : Nat) (s : Str) :
    parseTermE (f + 1) s =
      (if peekC s = some '(' then
        match parseOrE f (s.drop 1) with
        | some (a, r) =>
          if peekC r = some ')' then some (a, r.drop 1) else some (a, r)
        | none => none
      else some (.lit (s.takeWhile isKwChar), s.dropWhile isKwChar)) := rfl

theorem parseAndLoopESucc (f : Nat) (items : List AstPy) (s : Str) :
    parseAndLoopE (f + 1) items s =
      (if peekC s = some '+' then
        match parseTermE f (s.drop 1) with
        | some (a, r) => parseAndLoopE f (items ++ [a]) r
        | none => none
      else some (mkAndNode items, s)) := rfl

theorem parseAndESucc (f : Nat) (s : Str) :
    parseAndE (f + 1) s =
      (match parseTermE f s with
      | some (a, r) => parseAndLoopE f [a] r
      | none => none) := rfl

theorem parseOrLoopESucc (f : Nat) (items : List AstPy) (s : Str) :
    parseOrLoopE (f + 1) items s =
      (if peekC s = some '|' then
        match parseAndE f (s.drop 1) with
        | some (a, r) => parseOrLoopE f (items ++ [a]) r
        | none => none
      else some (mkOrNode items, s)) := rfl

theorem parseOrESucc (f : Nat) (s : Str) :
    parseOrE (f + 1) s =
      (match parseAndE f s with
      | some (a, r) => parseOrLoopE f [a] r
      | none => none) := rfl

theorem peekCWordNotPar (w rest : Str) (hw : w ≠ [])
    (hkw : ∀ c ∈ w, isKwChar c = true) : ¬ peekC (w ++ rest) = some '(' := by
  cases w with
  | nil => exact absurd rfl hw
  | cons c w2 =>
    have hc : isKwChar c = true := hkw c (List.mem_cons_self _ _)
    show ¬ some c = some '('
    intro hh
    have hcp : c = '(' := by injection hh
    rw [hcp] at hc
    simp [isKwChar] at hc

theorem parseTermWord (f : Nat) (hf : 1 ≤ f) (w rest : Str) (hw : w ≠ [])
    (hkw : ∀ c ∈ w, isKwChar c = true) (hr : headKw rest = false) :
    parseTermE f (w ++ rest) = some (.lit w, rest) := by
  obtain ⟨f2, rfl⟩ : ∃ f2, f = f2 + 1 := ⟨f - 1, by omega⟩
  rw [parseTermESucc, if_neg (peekCWordNotPar w rest hw hkw)]
  have htd := takeWhileWord w rest hkw hr
  rw [htd.1, htd.2]

theorem parseAndLoopChain (ws : List Str) (hv : ∀ w ∈ ws, validWord w) :
    ∀ (f : Nat) (items : List AstPy), 2 * ws.length + 1 ≤ f →
      parseAndLoopE f items (plusChain ws) =
        some (mkAndNode (items ++ ws.map AstPy.lit), []) := by
  induction ws with
  | nil =>
    intro f items hf
    obtain ⟨f2, rfl⟩ : ∃ f2, f = f2 + 1 := ⟨f - 1, by omega⟩
    rw [parseAndLoopESucc]
    rw [if_neg (by simp [plusChain, peekC])]
    simp [plusChain]
  | cons w ws ih =>
    intro f items hf
    have hv1 : validWord w := hv w (List.mem_cons_self _ _)
    have hvr : ∀ x ∈ ws, validWord x := fun x hx => hv x (List.mem_cons_of_mem _ hx)
    obtain ⟨f2, rfl⟩ : ∃ f2, f = f2 + 1 := ⟨f - 1, by omega⟩
    rw [parseAndLoopESucc]
    rw [show plusChain (w :: ws) = '+' :: (w ++ plusChain ws) from rfl]
    rw [if_pos (by rfl)]
    have hdrop : ('+' :: (w ++ plusChain ws)).drop 1 = w ++ plusChain ws := rfl
    rw [hdrop]
    rw [parseTermWord f2 (by simp only [List.length_cons] at hf; omega) w
      (plusChain ws) (validWordNe w hv1) (validWordKw w hv1) (headKwPlusChain ws)]
    show parseAndLoopE f2 (items ++ [AstPy.lit w]) (plusChain ws) = _
    rw [ih hvr f2 (items ++ [AstPy.lit w])
      (by simp only [List.length_cons] at hf; omega)]
    rw [List.append_assoc]
    rfl

theorem parseAndChain (ws : List Str) (hv : ∀ w ∈ ws, validWord w)
    (hne : ws ≠ []) (f : Nat) (hf : 2 * ws.length + 2 ≤ f) :
    parseAndE f (andChainStr ws) = some (andAst ws, []) := by
  cases ws with
  | nil => exact absurd rfl hne
  | cons w ws =>
    have hv1 : validWord w := hv w (List.mem_cons_self _ _)
    have hvr : ∀ x ∈ ws, validWord x := fun x hx => hv x (List.mem_cons_of_mem _ hx)
    obtain ⟨f2, rfl⟩ : ∃ f2, f = f2 + 1 := ⟨f - 1, by omega⟩
    rw [parseAndESucc]
    rw [show andChainStr (w :: ws) = w ++ plusChain ws from rfl]
    rw [parseTermWord f2 (by simp only [List.length_cons] at hf; omega) w
      (plusChain ws) (validWordNe w hv1) (validWordKw w hv1) (headKwPlusChain ws)]
    show parseAndLoopE f2 [AstPy.lit w] (plusChain ws) = _
    rw [parseAndLoopChain ws hvr f2 [AstPy.lit w]
      (by simp only [List.length_cons] at hf; omega)]
    rfl

theorem parseAndSingleWord (f : Nat) (hf : 2 ≤ f) (w rest : Str)
    (hv : validWord w) (hr : headKw rest = false)
    (hplus : ¬ peekC rest = some '+') :
    parseAndE f (w ++ rest) = some (.lit w, rest) := by
  obtain ⟨f2, rfl⟩ : ∃ f2, f = f2 + 1 := ⟨f - 1, by omega⟩
  rw [parseAndESucc]
  rw [parseTermWord f2 (by omega) w rest (validWordNe w hv) (validWordKw w hv) hr]
  show parseAndLoopE f2 [AstPy.lit w] rest = _
  obtain ⟨f3, rfl⟩ : ∃ f3, f2 = f3 + 1 := ⟨f2 - 1, by omega⟩
  rw [parseAndLoopESucc, if_neg hplus]
  rfl

theorem peekCBarChain (ws : List Str) : ¬ peekC (barChain ws) = some '+' := by
  cases ws with
  | nil => simp [barChain, peekC]
  | cons w ws =>
    show ¬ some '|' = some '+'
    intro hh
    have : '|' = '+' := by injection hh
    exact absurd this (by decide)

theorem parseOrLoopChain (ws : List Str) (hv : ∀ w ∈ ws, validWord w) :
    ∀ (f : Nat) (items : List AstPy), 3 * ws.length + 1 ≤ f →
      parseOrLoopE f items (barChain ws) =
        some (mkOrNode (items ++ ws.map AstPy.lit), []) := by
  induction ws with
  | nil =>
    intro f items hf
    obtain ⟨f2, rfl⟩ : ∃ f2, f = f2 + 1 := ⟨f - 1, by omega⟩
    rw [parseOrLoopESucc]
    rw [if_neg (by simp [barChain, peekC])]
    simp [barChain]
  | cons w ws ih =>
    intro f items hf
    have hv1 : validWord w := hv w (List.mem_cons_self _ _)
    have hvr : ∀ x ∈ ws, validWord x := fun x hx => hv x (List.mem_cons_of_mem _ hx)
    obtain ⟨f2, rfl⟩ : ∃ f2, f = f2 + 1 := ⟨f - 1, by omega⟩
    rw [parseOrLoopESucc]
    rw [show barChain (w :: ws) = '|' :: (w ++ barChain ws) from rfl]
    rw [if_pos (by rfl)]
    have hdrop : ('|' :: (w ++ barChain ws)).drop 1 = w ++ barChain ws := rfl
    rw [hdrop]
    rw [parseAndSingleWord f2 (by simp only [List.length_cons] at hf; omega) w
      (barChain ws) hv1 (headKwBarChain ws) (peekCBarChain ws)]
    show parseOrLoopE f2 (items ++ [AstPy.lit w]) (barChain ws) = _
    rw [ih hvr f2 (items ++ [AstPy.lit w])
      (by simp only [List.length_cons] at hf; omega)]
    rw [List.append_assoc]
    rfl

theorem parseOrAndChain (ws : List Str) (hv : ∀ w ∈ ws, validWord w)
    (hne : ws ≠ []) (f : Nat) (hf : 2 * ws.length + 3 ≤ f) :
    parseOrE f (andChainStr ws) = some (andAst ws, []) := by
  obtain ⟨f2, rfl⟩ : ∃ f2, f = f2 + 1 := ⟨f - 1, by omega⟩
  rw [parseOrESucc]
  rw [parseAndChain ws hv hne f2 (by omega)]
  show parseOrLoopE f2 [andAst ws] [] = _
  obtain ⟨f3, rfl⟩ : ∃ f3, f2 = f3 + 1 := ⟨f2 - 1, by omega⟩
  rw [parseOrLoopESucc, if_neg (by simp [peekC])]
  rfl

theorem parseOrOrChain (ws : List Str) (hv : ∀ w ∈ ws, validWord w)
    (hne : ws ≠ []) (f : Nat) (hf : 3 * ws.length + 3 ≤ f) :
    parseOrE f (orChainStr ws) = some (orAst ws, []) := by
  cases ws with
  | nil => exact absurd rfl hne
  | cons w ws =>
    have hv1 : validWord w := hv w (List.mem_cons_self _ _)
    have hvr : ∀ x ∈ ws, validWord x := fun x hx => hv x (List.mem_cons_of_mem _ hx)
    obtain ⟨f2, rfl⟩ : ∃ f2, f = f2 + 1 := ⟨f - 1, by omega⟩
    rw [parseOrESucc]
    rw [show orChainStr (w :: ws) = w ++ barChain ws from rfl]
    rw [parseAndSingleWord f2 (by simp only [List.length_cons] at hf; omega) w
      (barChain ws) hv1 (headKwBarChain ws) (peekCBarChain ws)]
    show parseOrLoopE f2 [AstPy.lit w] (barChain ws) = _
    rw [parseOrLoopChain ws hvr f2 [AstPy.lit w]
      (by simp only [List.length_cons] at hf; omega)]
    rfl

theorem plusChainLenGe (ws : List Str) : ws.length ≤ (plusChain ws).length := by
  induction ws with
  | nil => simp [plusChain]
  | cons w ws ih =>
    show ws.length + 1 ≤ ('+' :: (w ++ plusChain ws)).length
    simp only [List.length_cons, List.length_append]
    omega

theorem andChainLenGe (ws : List Str) (hv : ∀ w ∈ ws, validWord w)
    (hne : ws ≠ []) : ws.length ≤ (andChainStr ws).length := by
  cases ws with
  | nil => exact absurd rfl hne
  | cons w ws =>
    have h1 : 1 ≤ w.length := by
      have := validWordNe w (hv w (List.mem_cons_self _ _))
      cases w with
      | nil => exact absurd rfl this
      | cons c cs => simp
    show (w :: ws).length ≤ (w ++ plusChain ws).length
    have := plusChainLenGe ws
    simp only [List.length_cons, List.length_append]
    omega

theorem barChainLenGe (ws : List Str) : ws.length ≤ (barChain ws).length := by
  induction ws with
  | nil => simp [barChain]
  | cons w ws ih =>
    show ws.length + 1 ≤ ('|' :: (w ++ barChain ws)).length
    simp only [List.length_cons, List.length_append]
    omega

theorem orChainLenGe (ws : List Str) (hv : ∀ w ∈ ws, validWord w)
    (hne : ws ≠ []) : ws.length ≤ (orChainStr ws).length := by
  cases ws with
  | nil => exact absurd rfl hne
  | cons w ws =>
    have h1 : 1 ≤ w.length := by
      have := validWordNe w (hv w (List.mem_cons_self _ _))
      cases w with
      | nil => exact absurd rfl this
      | cons c cs => simp
    show (w :: ws).length ≤ (w ++ barChain ws).length
    have := barChainLenGe ws
    simp only [List.length_cons, List.length_append]
    omega

theorem filterSpaceId (s : Str) (h : ∀ c ∈ s, c.isWhitespace = false) :
    s.filter (fun c => decide (c ≠ ' ')) = s := by
  apply List.filter_eq_self.mpr
  intro a ha
  simp only [decide_eq_true_eq]
  intro hh
  have := h a ha
  rw [hh] at this
  exact absurd this (by decide)

theorem complexAndChain (ws : List Str) (hv : ∀ w ∈ ws, validWord w)
    (hne : ws ≠ []) : complexExpression (andChainStr ws) = some (andAst ws) := by
  show (parseOrE
      (3 * ((andChainStr ws).filter (fun c => decide (c ≠ ' '))).length + 3)
      ((andChainStr ws).filter (fun c => decide (c ≠ ' ')))).map Prod.fst = _
  rw [filterSpaceId _ (noWsAndChain ws hv hne)]
  have hlen := andChainLenGe ws hv hne
  rw [parseOrAndChain ws hv hne _ (by omega)]
  rfl

theorem complexOrChain (ws : List Str) (hv : ∀ w ∈ ws, validWord w)
    (hne : ws ≠ []) : complexExpression (orChainStr ws) = some (orAst ws) := by
  show (parseOrE
      (3 * ((orChainStr ws).filter (fun c => decide (c ≠ ' '))).length + 3)
      ((orChainStr ws).filter (fun c => decide (c ≠ ' ')))).map Prod.fst = _
  rw [filterSpaceId _ (noWsOrChain ws hv hne)]
  have hlen := orChainLenGe ws hv hne
  rw [parseOrOrChain ws hv hne _ (by omega)]
  rfl

theorem headKwRepl (m : Nat) : headKw (List.replicate m ')') = false := by
  cases m with
  | zero => rfl
  | succ n => rfl

theorem peekReplPlus (m : Nat) : ¬ peekC (List.replicate m ')') = some '+' := by
  cases m with
  | zero => simp [peekC]
  | succ n =>
    show ¬ some ')' = some '+'
    intro hh
    have : ')' = '+' := by injection hh
    exact absurd this (by decide)

theorem peekReplBar (m : Nat) : ¬ peekC (List.replicate m ')') = some '|' := by
  cases m with
  | zero => simp [peekC]
  | succ n =>
    show ¬ some ')' = some '|'
    intro hh
    have : ')' = '|' := by injection hh
    exact absurd this (by decide)

theorem parseOrWord (w : Str) (hv : validWord w) (m f : Nat) (hf : 3 ≤ f) :
    parseOrE f (w ++ List.replicate m ')') =
      some (.lit w, List.replicate m ')') := by
  obtain ⟨f2, rfl⟩ : ∃ f2, f = f2 + 1 := ⟨f - 1, by omega⟩
  rw [parseOrESucc]
  rw [parseAndSingleWord f2 (by omega) w (List.replicate m ')') hv
    (headKwRepl m) (peekReplPlus m)]
  show parseOrLoopE f2 [AstPy.lit w] (List.replicate m ')') = _
  obtain ⟨f3, rfl⟩ : ∃ f3, f2 = f3 + 1 := ⟨f2 - 1, by omega⟩
  rw [parseOrLoopESucc, if_neg (peekReplBar m)]
  rfl

theorem parseOrWrapAux (w : Str) (hv : validWord w) :
    ∀ (k m f : Nat), k ≤ m → 3 * k + 3 ≤ f →
      parseOrE f (List.replicate k '(' ++ (w ++ List.replicate m ')')) =
        some (.lit w, List.replicate (m - k) ')') := by
  intro k
  induction k with
  | zero =>
    intro m f _ hf
    simp only [List.replicate_zero, List.nil_append, Nat.sub_zero]
    exact parseOrWord w hv m f (by omega)
  | succ k ih =>
    intro m f hkm hf
    obtain ⟨f4, rfl⟩ : ∃ f4, f = f4 + 3 := ⟨f - 3, by omega⟩
    have hshape : List.replicate (k + 1) '(' ++ (w ++ List.replicate m ')') =
        '(' :: (List.replicate k '(' ++ (w ++ List.replicate m ')')) := by
      rw [List.replicate_succ]
      rfl
    have hmk : m - k = (m - (k + 1)) + 1 := by omega
    have hterm : parseTermE (f4 + 1)
        ('(' :: (List.replicate k '(' ++ (w ++ List.replicate m ')'))) =
        some (.lit w, List.replicate (m - (k + 1)) ')') := by
      rw [parseTermESucc,
        if_pos (show peekC ('(' :: (List.replicate k '(' ++
          (w ++ List.replicate m ')'))) = some '(' from rfl)]
      rw [show ('(' :: (List.replicate k '(' ++ (w ++ List.replicate m ')'))).drop 1 =
          List.replicate k '(' ++ (w ++ List.replicate m ')') from rfl]
      rw [ih m f4 (by omega) (by omega)]
      rw [hmk, List.replicate_succ]
      show (if peekC (')' :: List.replicate (m - (k + 1)) ')') = some ')' then
          some (AstPy.lit w, (')' :: List.replicate (m - (k + 1)) ')').drop 1)
        else some (AstPy.lit w, ')' :: List.replicate (m - (k + 1)) ')')) = _
      rw [if_pos (show peekC (')' :: List.replicate (m - (k + 1)) ')') = some ')'
        from rfl)]
      rfl
    have hand : parseAndE (f4 + 2)
        ('(' :: (List.replicate k '(' ++ (w ++ List.replicate m ')'))) =
        some (.lit w, List.replicate (m - (k + 1)) ')') := by
      rw [parseAndESucc, hterm]
      show parseAndLoopE (f4 + 1) [AstPy.lit w]
          (List.replicate (m - (k + 1)) ')') = _
      rw [parseAndLoopESucc, if_neg (peekReplPlus _)]
      rfl
    rw [hshape]
    rw [show (f4 + 3 : Nat) = (f4 + 2) + 1 from rfl, parseOrESucc, hand]
    show parseOrLoopE (f4 + 2) [AstPy.lit w]
        (List.replicate (m - (k + 1)) ')') = _
    rw [show (f4 + 2 : Nat) = (f4 + 1) + 1 from rfl, parseOrLoopESucc,
      if_neg (peekReplBar _)]
    rfl

theorem complexWord (w : Str) (hv : validWord w) :
    complexExpression w = some (.lit w) := by
  show (parseOrE (3 * (w.filter (fun c => decide (c ≠ ' '))).length + 3)
      (w.filter (fun c => decide (c ≠ ' ')))).map Prod.fst = _
  rw [filterSpaceId w (validWordNoWs w hv)]
  have h0 : parseOrE (3 * w.length + 3) (w ++ List.replicate 0 ')') =
      some (.lit w, List.replicate 0 ')') :=
    parseOrWord w hv 0 _ (by omega)
  simp only [List.replicate_zero, List.append_nil] at h0
  rw [h0]
  rfl

theorem complexWrap (w : Str) (hv : validWord w) (n : Nat) :
    complexExpression (wrapParens n w) = some (.lit w) := by
  show (parseOrE
      (3 * ((wrapParens n w).filter (fun c => decide (c ≠ ' '))).length + 3)
      ((wrapParens n w).filter (fun c => decide (c ≠ ' ')))).map Prod.fst = _
  rw [filterSpaceId _ (noWsWrap n w hv)]
  have hlen : n ≤ (wrapParens n w).length := by
    unfold wrapParens
    simp only [List.length_append, List.length_replicate]
    omega
  have h0 := parseOrWrapAux w hv n n
    (3 * (wrapParens n w).length + 3) (le_refl n) (by omega)
  rw [show List.replicate n '(' ++ (w ++ List.replicate n ')') = wrapParens n w
    from by unfold wrapParens; rw [List.append_assoc]] at h0
  rw [h0]
  simp

/-! ## Lemmas: the evaluator, deduplication and sorting of pairs -/

theorem checkMatchLit (w : Str) (ts : List Str) :
    checkMatch (AstPy.lit w) ts =
      if w.isEmpty then false else memStr (lowerStr w) ts := rfl

theorem checkAllLits (ws : List Str) (ts : List Str) (hv : ∀ w ∈ ws, w ≠ []) :
    checkAll (ws.map AstPy.lit) ts = ws.all (fun w => memStr (lowerStr w) ts) := by
  induction ws with
  | nil => rfl
  | cons w ws ih =>
    have hw : w.isEmpty = false := by
      have := hv w (List.mem_cons_self _ _)
      cases w with
      | nil => exact absurd rfl this
      | cons c cs => rfl
    show (checkMatch (AstPy.lit w) ts && checkAll (ws.map AstPy.lit) ts) = _
    rw [checkMatchLit, hw, ih (fun x hx => hv x (List.mem_cons_of_mem _ hx))]
    simp [List.all_cons]

theorem checkAnyLits (ws : List Str) (ts : List Str) (hv : ∀ w ∈ ws, w ≠ []) :
    checkAny (ws.map AstPy.lit) ts = ws.any (fun w => memStr (lowerStr w) ts) := by
  induction ws with
  | nil => rfl
  | cons w ws ih =>
    have hw : w.isEmpty = false := by
      have := hv w (List.mem_cons_self _ _)
      cases w with
      | nil => exact absurd rfl this
      | cons c cs => rfl
    show (checkMatch (AstPy.lit w) ts || checkAny (ws.map AstPy.lit) ts) = _
    rw [checkMatchLit, hw, ih (fun x hx => hv x (List.mem_cons_of_mem _ hx))]
    simp [List.any_cons]

theorem checkMatchAndAst (ws : List Str) (ts : List Str) (hne : ws ≠ [])
    (hv : ∀ w ∈ ws, w ≠ []) :
    checkMatch (andAst ws) ts = ws.all (fun w => memStr (lowerStr w) ts) := by
  cases ws with
  | nil => exact absurd rfl hne
  | cons w ws =>
    cases ws with
    | nil =>
      show checkMatch (AstPy.lit w) ts = _
      have hw : w.isEmpty = false := by
        have := hv w (List.mem_cons_self _ _)
        cases w with
        | nil => exact absurd rfl this
        | cons c cs => rfl
      rw [checkMatchLit, hw]
      simp [List.all_cons]
    | cons b bs =>
      show checkMatch (AstPy.opn OpKind.andK
        (AstPy.lit w :: AstPy.lit b :: bs.map AstPy.lit)) ts = _
      rw [show checkMatch (AstPy.opn OpKind.andK
          (AstPy.lit w :: AstPy.lit b :: bs.map AstPy.lit)) ts =
        checkAll (AstPy.lit w :: AstPy.lit b :: bs.map AstPy.lit) ts from rfl]
      rw [show (AstPy.lit w :: AstPy.lit b :: bs.map AstPy.lit) =
        ((w :: b :: bs).map AstPy.lit) from rfl]
      exact checkAllLits (w :: b :: bs) ts hv

theorem checkMatchOrAst (ws : List Str) (ts : List Str) (hne : ws ≠ [])
    (hv : ∀ w ∈ ws, w ≠ []) :
    checkMatch (orAst ws) ts = ws.any (fun w => memStr (lowerStr w) ts) := by
  cases ws with
  | nil => exact absurd rfl hne
  | cons w ws =>
    cases ws with
    | nil =>
      show checkMatch (AstPy.lit w) ts = _
      have hw : w.isEmpty = false := by
        have := hv w (List.mem_cons_self _ _)
        cases w with
        | nil => exact absurd rfl this
        | cons c cs => rfl
      rw [checkMatchLit, hw]
      simp [List.any_cons]
    | cons b bs =>
      show checkMatch (AstPy.opn OpKind.orK
        (AstPy.lit w :: AstPy.lit b :: bs.map AstPy.lit)) ts = _
      rw [show checkMatch (AstPy.opn OpKind.orK
          (AstPy.lit w :: AstPy.lit b :: bs.map AstPy.lit)) ts =
        checkAny (AstPy.lit w :: AstPy.lit b :: bs.map AstPy.lit) ts from rfl]
      rw [show (AstPy.lit w :: AstPy.lit b :: bs.map AstPy.lit) =
        ((w :: b :: bs).map AstPy.lit) from rfl]
      exact checkAnyLits (w :: b :: bs) ts hv

theorem allFilterNe (l : List Str) (x : Str) (p : Str → Bool) (hx : p x = true) :
    (l.filter (fun y => decide (y ≠ x))).all p = l.all p := by
  induction l with
  | nil => rfl
  | cons y ys ih =>
    rw [List.filter_cons]
    by_cases hy : y = x
    · rw [if_neg (by simp [hy])]
      rw [ih, List.all_cons, hy, hx]
      simp
    · rw [if_pos (by simp [hy])]
      rw [List.all_cons, List.all_cons, ih]

theorem allDedup (l : List Str) (p : Str → Bool) :
    (dedupFirst l).all p = l.all p := by
  induction l with
  | nil => rfl
  | cons x xs ih =>
    show (p x && ((dedupFirst xs).filter (fun y => decide (y ≠ x))).all p) = _
    by_cases hp : p x = true
    · rw [hp, allFilterNe _ _ _ hp, ih, List.all_cons, hp]
    · have hp2 : p x = false := by
        cases hpx : p x with
        | true => exact absurd hpx hp
        | false => rfl
      rw [hp2, List.all_cons, hp2]
      simp

theorem anyFilterNe (l : List Str) (x : Str) (p : Str → Bool) (hx : p x = false) :
    (l.filter (fun y => decide (y ≠ x))).any p = l.any p := by
  induction l with
  | nil => rfl
  | cons y ys ih =>
    rw [List.filter_cons]
    by_cases hy : y = x
    · rw [if_neg (by simp [hy])]
      rw [ih, List.any_cons, hy, hx]
      simp
    · rw [if_pos (by simp [hy])]
      rw [List.any_cons, List.any_cons, ih]

theorem anyDedup (l : List Str) (p : Str → Bool) :
    (dedupFirst l).any p = l.any p := by
  induction l with
  | nil => rfl
  | cons x xs ih =>
    show (p x || ((dedupFirst xs).filter (fun y => decide (y ≠ x))).any p) = _
    by_cases hp : p x = true
    · rw [hp, List.any_cons, hp]
      simp
    · have hp2 : p x = false := by
        cases hpx : p x with
        | true => exact absurd hpx hp
        | false => rfl
      rw [hp2, anyFilterNe _ _ _ hp2, ih, List.any_cons, hp2]

theorem strLeTotal (a : Str) : ∀ b : Str, strLe a b = true ∨ strLe b a = true := by
  induction a with
  | nil => intro b; exact Or.inl rfl
  | cons x as ih =>
    intro b
    cases b with
    | nil => exact Or.inr rfl
    | cons y bs =>
      show (if x = y then strLe as bs else decide (x < y)) = true ∨
        (if y = x then strLe bs as else decide (y < x)) = true
      by_cases hxy : x = y
      · rw [if_pos hxy, if_pos hxy.symm]
        exact ih bs
      · rw [if_neg hxy, if_neg (fun hh => hxy hh.symm)]
        rcases lt_or_gt_of_ne hxy with h | h
        · exact Or.inl (by simp [h])
        · exact Or.inr (by simp [h])

theorem strLeAntisym (a : Str) :
    ∀ b : Str, strLe a b = true → strLe b a = true → a = b := by
  induction a with
  | nil =>
    intro b h1 h2
    cases b with
    | nil => rfl
    | cons y bs => exact absurd h2 (by simp [strLe])
  | cons x as ih =>
    intro b h1 h2
    cases b with
    | nil => exact absurd h1 (by simp [strLe])
    | cons y bs =>
      rw [show strLe (x :: as) (y :: bs) =
        (if x = y then strLe as bs else decide (x < y)) from rfl] at h1
      rw [show strLe (y :: bs) (x :: as) =
        (if y = x then strLe bs as else decide (y < x)) from rfl] at h2
      by_cases hxy : x = y
      · rw [if_pos hxy] at h1
        rw [if_pos hxy.symm] at h2
        rw [hxy, ih bs h1 h2]
      · rw [if_neg hxy] at h1
        rw [if_neg (fun hh => hxy hh.symm)] at h2
        rw [decide_eq_true_eq] at h1 h2
        exact absurd h2 (lt_asymm h1)

theorem dedupPairNe (a b : Str) (hab : a ≠ b) :
    dedupFirst [a, b] = [a, b] := by
  show a :: (dedupFirst [b]).filter (fun y => decide (y ≠ a)) = [a, b]
  show a :: ([b] : List Str).filter (fun y => decide (y ≠ a)) = [a, b]
  rw [List.filter_cons]
  rw [if_pos (by simp; exact fun hh => hab hh.symm)]
  rfl

theorem sortStrsPair (a b : Str) :
    sortStrs (dedupFirst [a, b]) = sortStrs (dedupFirst [b, a]) := by
  by_cases hab : a = b
  · subst hab
    rfl
  · have hba : b ≠ a := fun hh => hab hh.symm
    rw [dedupPairNe a b hab, dedupPairNe b a hba]
    show insSorted a (insSorted b []) = insSorted b (insSorted a [])
    show insSorted a [b] = insSorted b [a]
    show (if strLe a b then [a, b] else b :: insSorted a []) =
      (if strLe b a then [b, a] else a :: insSorted b [])
    by_cases h1 : strLe a b = true
    · rw [if_pos h1]
      have h2 : ¬ strLe b a = true := by
        intro h2
        exact hab (strLeAntisym a b h1 h2)
      rw [if_neg h2]
      rfl
    · rcases strLeTotal a b with h | h2
      · exact absurd h h1
      · rw [if_neg h1, if_pos h2]
        rfl

theorem dedupPairLen (a b : Str) :
    (dedupFirst [a, b]).length = (dedupFirst [b, a]).length := by
  by_cases hab : a = b
  · subst hab; rfl
  · rw [dedupPairNe a b hab, dedupPairNe b a (fun hh => hab hh.symm)]
    rfl

theorem pairFastAnd (a b : Str) (p : Str → Bool) :
    (dedupFirst ((dedupFirst [a, b]).map lowerStr)).all p =
      (dedupFirst ((dedupFirst [b, a]).map lowerStr)).all p := by
  rw [allDedup, List.all_map, allDedup, allDedup, List.all_map, allDedup]
  show (p (lowerStr a) && (p (lowerStr b) && true)) =
    (p (lowerStr b) && (p (lowerStr a) && true))
  cases p (lowerStr a) <;> cases p (lowerStr b) <;> rfl

theorem pairFastOr (a b : Str) (p : Str → Bool) :
    (dedupFirst ((dedupFirst [a, b]).map lowerStr)).any p =
      (dedupFirst ((dedupFirst [b, a]).map lowerStr)).any p := by
  rw [anyDedup, List.any_map, anyDedup, anyDedup, List.any_map, anyDedup]
  show (p (lowerStr a) || (p (lowerStr b) || false)) =
    (p (lowerStr b) || (p (lowerStr a) || false))
  cases p (lowerStr a) <;> cases p (lowerStr b) <;> rfl

/-! ## Lemmas: `expr_match` on the claim-relevant expression shapes -/

theorem exprMatchStripped (e v : Str) (h : stripWs e = e) :
    exprMatch e v =
      (if (dedupFirst (splitKws e)).isEmpty then none
       else
         exprMatchTail e (dedupFirst (splitKws e))
           (if (dedupFirst (splitKws e)).length ≤ 20 then
             findKeywordsSimple (lowerStr v) (dedupFirst (splitKws e))
           else findKeywordsRegex (lowerStr v) (dedupFirst (splitKws e)))) := by
  unfold exprMatch
  rw [h]

theorem fullPathStripped (e v : Str) (h : stripWs e = e) :
    fullPathMatch e v =
      (if (dedupFirst (splitKws e)).isEmpty then none
       else
         fullPathTail e
           (if (dedupFirst (splitKws e)).length ≤ 20 then
             findKeywordsSimple (lowerStr v) (dedupFirst (splitKws e))
           else findKeywordsRegex (lowerStr v) (dedupFirst (splitKws e)))) := by
  unfold fullPathMatch
  rw [h]

theorem tailAndChainFast (ws : List Str) (hv : ∀ w ∈ ws, validWord w)
    (h2 : 2 ≤ ws.length) (kws : List Str) (target : Assoc) :
    exprMatchTail (andChainStr ws) kws target =
      (if target.isEmpty then none
       else if (dedupFirst (kws.map lowerStr)).all
           (fun k => memStr k (target.map Prod.fst)) then some target
       else none) := by
  have hne : ws ≠ [] := by intro hh; rw [hh] at h2; simp at h2
  unfold exprMatchTail
  by_cases ht : target.isEmpty
  · rw [if_pos ht, if_pos ht]
  · rw [if_neg ht, if_neg ht]
    rw [if_pos (by
      rw [hasCharAndChainPlus ws h2,
        hasCharAndChainFalse ws hv hne '|' (by decide) (by decide),
        hasCharAndChainFalse ws hv hne '(' (by decide) (by decide)]
      rfl)]

theorem tailOrChainFast (ws : List Str) (hv : ∀ w ∈ ws, validWord w)
    (h2 : 2 ≤ ws.length) (kws : List Str) (target : Assoc) :
    exprMatchTail (orChainStr ws) kws target =
      (if target.isEmpty then none
       else if (dedupFirst (kws.map lowerStr)).any
           (fun k => memStr k (target.map Prod.fst)) then some target
       else none) := by
  have hne : ws ≠ [] := by intro hh; rw [hh] at h2; simp at h2
  unfold exprMatchTail
  by_cases ht : target.isEmpty
  · rw [if_pos ht, if_pos ht]
  · rw [if_neg ht, if_neg ht]
    rw [if_neg (by
      rw [hasCharOrChainFalse ws hv hne '+' (by decide) (by decide)]
      simp)]
    rw [if_pos (by
      rw [hasCharOrChainBar ws h2,
        hasCharOrChainFalse ws hv hne '+' (by decide) (by decide),
        hasCharOrChainFalse ws hv hne '(' (by decide) (by decide)]
      rfl)]

theorem tailAndChain (ws : List Str) (hv : ∀ w ∈ ws, validWord w)
    (h2 : 2 ≤ ws.length) (target : Assoc) :
    exprMatchTail (andChainStr ws) (dedupFirst ws) target =
      fullPathTail (andChainStr ws) target := by
  have hne : ws ≠ [] := by intro hh; rw [hh] at h2; simp at h2
  rw [tailAndChainFast ws hv h2 (dedupFirst ws) target]
  unfold fullPathTail
  by_cases ht : target.isEmpty
  · rw [if_pos ht, if_pos ht]
  · rw [if_neg ht, if_neg ht]
    rw [complexAndChain ws hv hne]
    show (if (dedupFirst ((dedupFirst ws).map lowerStr)).all
        (fun k => memStr k (target.map Prod.fst)) then some target else none) =
      (if checkMatch (andAst ws) (target.map Prod.fst) then some target else none)
    rw [checkMatchAndAst ws _ hne (fun w hw => validWordNe w (hv w hw))]
    rw [allDedup, List.all_map, allDedup]
    rfl

theorem tailOrChain (ws : List Str) (hv : ∀ w ∈ ws, validWord w)
    (h2 : 2 ≤ ws.length) (target : Assoc) :
    exprMatchTail (orChainStr ws) (dedupFirst ws) target =
      fullPathTail (orChainStr ws) target := by
  have hne : ws ≠ [] := by intro hh; rw [hh] at h2; simp at h2
  rw [tailOrChainFast ws hv h2 (dedupFirst ws) target]
  unfold fullPathTail
  by_cases ht : target.isEmpty
  · rw [if_pos ht, if_pos ht]
  · rw [if_neg ht, if_neg ht]
    rw [complexOrChain ws hv hne]
    show (if (dedupFirst ((dedupFirst ws).map lowerStr)).any
        (fun k => memStr k (target.map Prod.fst)) then some target else none) =
      (if checkMatch (orAst ws) (target.map Prod.fst) then some target else none)
    rw [checkMatchOrAst ws _ hne (fun w hw => validWordNe w (hv w hw))]
    rw [anyDedup, List.any_map, anyDedup]
    rfl

theorem validWordsOfAll (ws : List Str) (h : ws.all validWordB = true) :
    ∀ w ∈ ws, validWord w := by
  intro w hw
  exact List.all_eq_true.mp h w hw

/-- Claim C2, counterexample: `"a++b"` has the surface syntax of a pure AND
chain (contains `'+'`, no `'|'`, no `'('`), so `expr_match` answers it with
the fast subset test and matches text `"ab"`; but parsing it with
`complex_expression` yields an AND node containing an empty-keyword item
which `_check_match` evaluates to false, so the parse-evaluate path answers
no-match. -/
theorem c2_counterexample :
    exprMatch "a++b".toList "ab".toList ≠
      fullPathMatch "a++b".toList "ab".toList := by
  decide

/-- Claim C2, amended: for pure AND chains and pure OR chains in which
every operand between operators is a non-empty keyword (no stray or
adjacent operators), the fast path of `expr_match` agrees with the full
parse-and-evaluate path on every text. -/
theorem c2_thm (ws : List Str) (hv : ∀ w ∈ ws, validWord w)
    (h2 : 2 ≤ ws.length) :
    (∀ t : Str, exprMatch (andChainStr ws) t = fullPathMatch (andChainStr ws) t) ∧
    (∀ t : Str, exprMatch (orChainStr ws) t = fullPathMatch (orChainStr ws) t) := by
  have hne : ws ≠ [] := by intro hh; rw [hh] at h2; simp at h2
  constructor
  · intro t
    have hstrip : stripWs (andChainStr ws) = andChainStr ws :=
      stripWsId _ (noWsAndChain ws hv hne)
    rw [exprMatchStripped _ _ hstrip, fullPathStripped _ _ hstrip]
    rw [splitKwsAndChain ws hv hne]
    by_cases hemp : (dedupFirst ws).isEmpty
    · rw [if_pos hemp, if_pos hemp]
    · rw [if_neg hemp, if_neg hemp]
      exact tailAndChain ws hv h2 _
  · intro t
    have hstrip : stripWs (orChainStr ws) = orChainStr ws :=
      stripWsId _ (noWsOrChain ws hv hne)
    rw [exprMatchStripped _ _ hstrip, fullPathStripped _ _ hstrip]
    rw [splitKwsOrChain ws hv hne]
    by_cases hemp : (dedupFirst ws).isEmpty
    · rw [if_pos hemp, if_pos hemp]
    · rw [if_neg hemp, if_neg hemp]
      exact tailOrChain ws hv h2 _

/-- Witness for C2: the two-keyword AND chain `"a+b"` on `"ab"` and the OR
chain `"a|b"` on `"xb"`. -/
theorem c2_witness :
    exprMatch (andChainStr ["a".toList, "b".toList]) "ab".toList =
        fullPathMatch (andChainStr ["a".toList, "b".toList]) "ab".toList ∧
      exprMatch (orChainStr ["a".toList, "b".toList]) "xb".toList =
        fullPathMatch (orChainStr ["a".toList, "b".toList]) "xb".toList :=
  ⟨(c2_thm ["a".toList, "b".toList] (validWordsOfAll _ (by decide))
      (by decide)).1 "ab".toList,
   (c2_thm ["a".toList, "b".toList] (validWordsOfAll _ (by decide))
      (by decide)).2 "xb".toList⟩

theorem tailWordFastAnd (w : Str) (e : Str) (target : Assoc)
    (hplus : hasChar e '+' = true) (hbar : hasChar e '|' = false)
    (hpar : hasChar e '(' = false) :
    exprMatchTail e [w] target =
      (if target.isEmpty then none
       else if memStr (lowerStr w) (target.map Prod.fst) then some target
       else none) := by
  unfold exprMatchTail
  by_cases ht : target.isEmpty
  · rw [if_pos ht, if_pos ht]
  · rw [if_neg ht, if_neg ht]
    rw [if_pos (by rw [hplus, hbar, hpar]; rfl)]
    show (if ((memStr (lowerStr w) (target.map Prod.fst)) && true) = true then
        some target else none) = _
    rw [Bool.and_true]

theorem tailWordFastOr (w : Str) (e : Str) (target : Assoc)
    (hplus : hasChar e '+' = false) (hbar : hasChar e '|' = true)
    (hpar : hasChar e '(' = false) :
    exprMatchTail e [w] target =
      (if target.isEmpty then none
       else if memStr (lowerStr w) (target.map Prod.fst) then some target
       else none) := by
  unfold exprMatchTail
  by_cases ht : target.isEmpty
  · rw [if_pos ht, if_pos ht]
  · rw [if_neg ht, if_neg ht]
    rw [if_neg (by rw [hplus]; simp)]
    rw [if_pos (by rw [hplus, hbar, hpar]; rfl)]
    show (if ((memStr (lowerStr w) (target.map Prod.fst)) || false) = true then
        some target else none) = _
    rw [Bool.or_false]

theorem tailWordParse (w : Str) (hv : validWord w) (e : Str) (target : Assoc)
    (hplus : hasChar e '+' = false) (hbar : hasChar e '|' = false)
    (hparse : complexExpression e = some (.lit w)) :
    exprMatchTail e [w] target =
      (if target.isEmpty then none
       else if memStr (lowerStr w) (target.map Prod.fst) then some target
       else none) := by
  unfold exprMatchTail
  by_cases ht : target.isEmpty
  · rw [if_pos ht, if_pos ht]
  · rw [if_neg ht, if_neg ht]
    rw [if_neg (by rw [hplus]; simp)]
    rw [if_neg (by rw [hbar]; simp)]
    rw [hparse]
    have hw : w.isEmpty = false := by
      have := validWordNe w hv
      cases w with
      | nil => exact absurd rfl this
      | cons c cs => rfl
    show (if checkMatch (AstPy.lit w) (target.map Prod.fst) = true then
        some target else none) = _
    rw [checkMatchLit, hw]
    rfl

theorem exprMatchWordForm (e t : Str) (w : Str)
    (hstrip : stripWs e = e) (hsplit : splitKws e = [w])
    (htail : ∀ target : Assoc, exprMatchTail e [w] target =
      (if target.isEmpty then none
       else if memStr (lowerStr w) (target.map Prod.fst) then some target
       else none)) :
    exprMatch e t =
      (if (findKeywordsSimple (lowerStr t) [w]).isEmpty then none
       else if memStr (lowerStr w)
           ((findKeywordsSimple (lowerStr t) [w]).map Prod.fst) then
         some (findKeywordsSimple (lowerStr t) [w])
       else none) := by
  rw [exprMatchStripped e t hstrip, hsplit]
  rw [show dedupFirst [w] = [w] from rfl]
  rw [if_neg (by simp)]
  rw [if_pos (by simp)]
  exact htail _

theorem splitKwsReplPar (k : Nat) (X : Str) :
    splitKws (List.replicate k '(' ++ X) = splitKws X := by
  induction k with
  | zero => simp
  | succ n ih =>
    rw [List.replicate_succ, List.cons_append, splitKwsDelim '(' _ (by decide), ih]

theorem splitKwsReplClose (m : Nat) : splitKws (List.replicate m ')') = [] := by
  induction m with
  | zero => rfl
  | succ n ih =>
    rw [List.replicate_succ, splitKwsDelim ')' _ (by decide), ih]

/-- Claim C3, counterexample: the malformed rule `"a+"` (stray `'+'` with no
right operand) does not return the `NoMatch` sentinel on the text `"a"`:
the fast AND path ignores the stray operator and returns the scanner
mapping. -/
theorem c3_counterexample :
    exprMatch "a+".toList "a".toList = some [("a".toList, 1)] := by
  rfl

/-- Claim C3, amended: a stray operator never propagates an exception, but
it does not make the rule permanently non-matching either: for every
keyword `w`, the malformed rules `w+` and `|w` behave exactly like the
plain rule `w` on every text — the stray operator is dropped by keyword
extraction and the fast path answers from the extracted keyword alone. -/
theorem c3_thm (w : Str) (hv : validWord w) (t : Str) :
    exprMatch (w ++ ['+']) t = exprMatch w t ∧
    exprMatch ('|' :: w) t = exprMatch w t := by
  have hw := validWordNe w hv
  have hkw := validWordKw w hv
  have hnws := validWordNoWs w hv
  have hsplitW : splitKws w = [w] := by
    have h0 := splitKwsWord w [] hw hkw rfl
    simpa using h0
  have hstripW : stripWs w = w := stripWsId w hnws
  constructor
  · have hstrip1 : stripWs (w ++ ['+']) = w ++ ['+'] := by
      apply stripWsId
      intro c hc
      rcases List.mem_append.mp hc with hc | hc
      · exact hnws c hc
      · rcases List.mem_cons.mp hc with rfl | hh
        · decide
        · simp at hh
    have hsplit1 : splitKws (w ++ ['+']) = [w] := by
      rw [splitKwsWord w ['+'] hw hkw (by decide)]
      rfl
    have hplus1 : hasChar (w ++ ['+']) '+' = true := by
      rw [hasCharEqMem]
      simp [List.mem_append]
    have hbar1 : hasChar (w ++ ['+']) '|' = false := by
      rw [hasCharEqMem]
      simp only [decide_eq_false_iff_not, List.mem_append]
      rintro (hc | hc)
      · exact notMemValidWord w hv '|' (by decide) hc
      · rcases List.mem_cons.mp hc with hh | hh
        · exact absurd hh (by decide)
        · simp at hh
    have hpar1 : hasChar (w ++ ['+']) '(' = false := by
      rw [hasCharEqMem]
      simp only [decide_eq_false_iff_not, List.mem_append]
      rintro (hc | hc)
      · exact notMemValidWord w hv '(' (by decide) hc
      · rcases List.mem_cons.mp hc with hh | hh
        · exact absurd hh (by decide)
        · simp at hh
    rw [exprMatchWordForm (w ++ ['+']) t w hstrip1 hsplit1
        (fun target => tailWordFastAnd w _ target hplus1 hbar1 hpar1),
      exprMatchWordForm w t w hstripW hsplitW
        (fun target => tailWordParse w hv w target
          (hasCharWordFalse w hv '+' (by decide))
          (hasCharWordFalse w hv '|' (by decide))
          (complexWord w hv))]
  · have hstrip2 : stripWs ('|' :: w) = '|' :: w := by
      apply stripWsId
      intro c hc
      rcases List.mem_cons.mp hc with rfl | hc
      · decide
      · exact hnws c hc
    have hsplit2 : splitKws ('|' :: w) = [w] := by
      rw [splitKwsDelim '|' w (by decide), hsplitW]
    have hplus2 : hasChar ('|' :: w) '+' = false := by
      rw [hasCharEqMem]
      simp only [decide_eq_false_iff_not, List.mem_cons]
      rintro (hh | hc)
      · exact absurd hh (by decide)
      · exact notMemValidWord w hv '+' (by decide) hc
    have hbar2 : hasChar ('|' :: w) '|' = true := by
      rw [hasCharEqMem]
      simp
    have hpar2 : hasChar ('|' :: w) '(' = false := by
      rw [hasCharEqMem]
      simp only [decide_eq_false_iff_not, List.mem_cons]
      rintro (hh | hc)
      · exact absurd hh (by decide)
      · exact notMemValidWord w hv '(' (by decide) hc
    rw [exprMatchWordForm ('|' :: w) t w hstrip2 hsplit2
        (fun target => tailWordFastOr w _ target hplus2 hbar2 hpar2),
      exprMatchWordForm w t w hstripW hsplitW
        (fun target => tailWordParse w hv w target
          (hasCharWordFalse w hv '+' (by decide))
          (hasCharWordFalse w hv '|' (by decide))
          (complexWord w hv))]

/-- Witness for C3 at the keyword `"a"` and text `"xay"`. -/
theorem c3_witness :
    exprMatch ("a".toList ++ ['+']) "xay".toList = exprMatch "a".toList "xay".toList ∧
    exprMatch ('|' :: "a".toList) "xay".toList = exprMatch "a".toList "xay".toList :=
  c3_thm "a".toList rfl "xay".toList

/-- Claim C7, counterexample: wrapping the sub-expression `a` of the
malformed chain `"a++b"` in redundant parentheses changes the result:
`"a++b"` is answered by the fast AND path and matches `"ab"`, while
`"(a)++b"` goes through the parser, whose empty middle operand makes the
AND evaluate to false. -/
theorem c7_counterexample :
    exprMatch "(a)++b".toList "ab".toList ≠ exprMatch "a++b".toList "ab".toList := by
  decide

/-- Claim C7, amended: for every keyword `a`, `expr_match("(a)", t)` equals
`expr_match("a", t)` — and more generally any number of layers of
redundant parentheses around a single keyword leaves the result unchanged,
because parenthesised sub-expressions return their inner node directly.
Wrapping a sub-expression of a *malformed* expression can change the
result, since it can move the expression from a fast path to the parser. -/
theorem c7_thm (w : Str) (hv : validWord w) (n : Nat) (t : Str) :
    exprMatch (wrapParens n w) t = exprMatch w t := by
  have hw := validWordNe w hv
  have hkw := validWordKw w hv
  have hnws := validWordNoWs w hv
  have hsplitW : splitKws w = [w] := by
    have h0 := splitKwsWord w [] hw hkw rfl
    simpa using h0
  have hstripW : stripWs w = w := stripWsId w hnws
  have hsplitWrap : splitKws (wrapParens n w) = [w] := by
    unfold wrapParens
    rw [List.append_assoc, splitKwsReplPar,
      splitKwsWord w _ hw hkw (headKwRepl n), splitKwsReplClose]
  have hstripWrap : stripWs (wrapParens n w) = wrapParens n w :=
    stripWsId _ (noWsWrap n w hv)
  rw [exprMatchWordForm (wrapParens n w) t w hstripWrap hsplitWrap
      (fun target => tailWordParse w hv _ target
        (hasCharWrapFalse n w hv '+' (by decide) (by decide) (by decide))
        (hasCharWrapFalse n w hv '|' (by decide) (by decide) (by decide))
        (complexWrap w hv n)),
    exprMatchWordForm w t w hstripW hsplitW
      (fun target => tailWordParse w hv w target
        (hasCharWordFalse w hv '+' (by decide))
        (hasCharWordFalse w hv '|' (by decide))
        (complexWord w hv))]

/-- Witness for C7: one layer of parentheses around `"a"` on text `"xa"`. -/
theorem c7_witness :
    exprMatch (wrapParens 1 "a".toList) "xa".toList =
      exprMatch "a".toList "xa".toList :=
  c7_thm "a".toList rfl 1 "xa".toList

/-- Claim C6: AND and OR are commutative in `expr_match` — swapping the two
operands of `a+b` (or `a|b`) produces the same match-or-no-match outcome
and, on a match, the identical keyword-to-count mapping, because the
keyword set is identical, the scanner sorts it into the same tuple, and
the fast-path subset/intersection tests are order-insensitive. -/
theorem c6_thm (a b : Str) (hva : validWord a) (hvb : validWord b) (t : Str) :
    exprMatch (andChainStr [a, b]) t = exprMatch (andChainStr [b, a]) t ∧
    exprMatch (orChainStr [a, b]) t = exprMatch (orChainStr [b, a]) t := by
  have hvab : ∀ w ∈ [a, b], validWord w := by
    intro w hw
    rcases List.mem_cons.mp hw with rfl | hw
    · exact hva
    · rcases List.mem_cons.mp hw with rfl | hw
      · exact hvb
      · simp at hw
  have hvba : ∀ w ∈ [b, a], validWord w := by
    intro w hw
    rcases List.mem_cons.mp hw with rfl | hw
    · exact hvb
    · rcases List.mem_cons.mp hw with rfl | hw
      · exact hva
      · simp at hw
  have hsimple : findKeywordsSimple (lowerStr t) (dedupFirst [a, b]) =
      findKeywordsSimple (lowerStr t) (dedupFirst [b, a]) := by
    unfold findKeywordsSimple
    rw [sortStrsPair a b]
  have hregex : findKeywordsRegex (lowerStr t) (dedupFirst [a, b]) =
      findKeywordsRegex (lowerStr t) (dedupFirst [b, a]) := by
    unfold findKeywordsRegex
    rw [show (dedupFirst [a, b]).isEmpty = false from rfl,
      show (dedupFirst [b, a]).isEmpty = false from rfl]
    simp only [Bool.false_eq_true, if_false]
    rw [sortStrsPair a b]
  constructor
  · rw [exprMatchStripped (andChainStr [a, b]) t
        (stripWsId _ (noWsAndChain [a, b] hvab (by simp))),
      exprMatchStripped (andChainStr [b, a]) t
        (stripWsId _ (noWsAndChain [b, a] hvba (by simp)))]
    rw [splitKwsAndChain [a, b] hvab (by simp),
      splitKwsAndChain [b, a] hvba (by simp)]
    rw [show (dedupFirst [a, b]).isEmpty = false from rfl,
      show (dedupFirst [b, a]).isEmpty = false from rfl]
    simp only [Bool.false_eq_true, if_false]
    rw [tailAndChainFast [a, b] hvab (by simp),
      tailAndChainFast [b, a] hvba (by simp)]
    rw [dedupPairLen a b, hsimple, hregex]
    rw [pairFastAnd a b]
  · rw [exprMatchStripped (orChainStr [a, b]) t
        (stripWsId _ (noWsOrChain [a, b] hvab (by simp))),
      exprMatchStripped (orChainStr [b, a]) t
        (stripWsId _ (noWsOrChain [b, a] hvba (by simp)))]
    rw [splitKwsOrChain [a, b] hvab (by simp),
      splitKwsOrChain [b, a] hvba (by simp)]
    rw [show (dedupFirst [a, b]).isEmpty = false from rfl,
      show (dedupFirst [b, a]).isEmpty = false from rfl]
    simp only [Bool.false_eq_true, if_false]
    rw [tailOrChainFast [a, b] hvab (by simp),
      tailOrChainFast [b, a] hvba (by simp)]
    rw [dedupPairLen a b, hsimple, hregex]
    rw [pairFastOr a b]

/-- Witness for C6 at `a = "a"`, `b = "b"`, text `"ab"`. -/
theorem c6_witness :
    exprMatch (andChainStr ["a".toList, "b".toList]) "ab".toList =
        exprMatch (andChainStr ["b".toList, "a".toList]) "ab".toList ∧
      exprMatch (orChainStr ["a".toList, "b".toList]) "ab".toList =
        exprMatch (orChainStr ["b".toList, "a".toList]) "ab".toList :=
  c6_thm "a".toList "b".toList rfl rfl "ab".toList

/-- Claim C8: an unterminated `'('` is tolerated — `complex_expression`
parses `"(a|b"` to the same OR node as `"(a|b)"` (scanning of the group
simply stops at end of input, no exception), and consequently
`expr_match("(a|b", t)` equals `expr_match("(a|b)", t)` for every text. -/
theorem c8_thm :
    complexExpression "(a|b".toList =
        some (.opn .orK [.lit ['a'], .lit ['b']]) ∧
      ∀ t : Str, exprMatch "(a|b".toList t = exprMatch "(a|b)".toList t :=
  ⟨rfl, fun _ => rfl⟩

/-! ## Lemmas: shape of the scanner mappings (for the result-type claim) -/

theorem dictSetEntries (m : Assoc) (k : Str) (v : Nat) (S : List Str)
    (hm : ∀ p ∈ m, 1 ≤ p.2 ∧ p.1 ∈ S) (hk : k ∈ S) (hval : 1 ≤ v) :
    ∀ p ∈ dictSet m k v, 1 ≤ p.2 ∧ p.1 ∈ S := by
  unfold dictSet
  cases alookup m k with
  | some w =>
    intro p hp
    rcases List.mem_map.mp hp with ⟨q, hq, rfl⟩
    by_cases hqk : q.1 = k
    · simp only [hqk, if_true, if_pos rfl]
      exact ⟨hval, hk⟩
    · simp only [hqk, if_false, if_neg hqk]
      exact hm q hq
  | none =>
    intro p hp
    rcases List.mem_append.mp hp with hp | hp
    · exact hm p hp
    · rcases List.mem_cons.mp hp with rfl | hh
      · exact ⟨hval, hk⟩
      · simp at hh

theorem findSimpleAuxEntries (tl : Str) (ks : List Str) (S : List Str)
    (hks : ∀ k ∈ ks, lowerStr k ∈ S) :
    ∀ acc, (∀ p ∈ acc, 1 ≤ p.2 ∧ p.1 ∈ S) →
      ∀ p ∈ findSimpleAux tl ks acc, 1 ≤ p.2 ∧ p.1 ∈ S := by
  induction ks with
  | nil => intro acc hacc p hp; exact hacc p hp
  | cons k ks ih =>
    intro acc hacc p hp
    refine ih (fun x hx => hks x (List.mem_cons_of_mem _ hx)) _ ?_ p hp
    by_cases hc : 0 < pyCount tl (lowerStr k)
    · rw [if_pos hc]
      exact dictSetEntries acc _ _ S hacc (hks k (List.mem_cons_self _ _)) hc
    · rw [if_neg hc]
      exact hacc

theorem entriesFindSimple (t : Str) (kws : List Str) :
    ∀ p ∈ findKeywordsSimple t kws, 1 ≤ p.2 ∧ p.1 ∈ kws.map lowerStr := by
  unfold findKeywordsSimple findSimpleCore
  apply findSimpleAuxEntries
  · intro k hk
    exact List.mem_map_of_mem lowerStr ((memSortStrs k kws).mp hk)
  · intro p hp
    simp at hp

theorem counterInsEntries (m : Assoc) (x : Str) (S : List Str)
    (hm : ∀ p ∈ m, 1 ≤ p.2 ∧ p.1 ∈ S) (hx : x ∈ S) :
    ∀ p ∈ counterIns m x, 1 ≤ p.2 ∧ p.1 ∈ S := by
  unfold counterIns
  cases alookup m x with
  | some n =>
    intro p hp
    rcases List.mem_map.mp hp with ⟨q, hq, rfl⟩
    by_cases hqk : q.1 = x
    · simp only [hqk, if_true, if_pos rfl]
      exact ⟨by omega, hx⟩
    · simp only [hqk, if_false, if_neg hqk]
      exact hm q hq
  | none =>
    intro p hp
    rcases List.mem_append.mp hp with hp | hp
    · exact hm p hp
    · rcases List.mem_cons.mp hp with rfl | hh
      · exact ⟨le_refl 1, hx⟩
      · simp at hh

theorem counterAuxEntries (l : List Str) (S : List Str) (hl : ∀ x ∈ l, x ∈ S) :
    ∀ acc, (∀ p ∈ acc, 1 ≤ p.2 ∧ p.1 ∈ S) →
      ∀ p ∈ counterAux acc l, 1 ≤ p.2 ∧ p.1 ∈ S := by
  induction l with
  | nil => intro acc hacc p hp; exact hacc p hp
  | cons x xs ih =>
    intro acc hacc p hp
    refine ih (fun y hy => hl y (List.mem_cons_of_mem _ hy)) _ ?_ p hp
    exact counterInsEntries acc x S hacc (hl x (List.mem_cons_self _ _))

theorem reFindAllMem (f : Nat) :
    ∀ (ks : List Str) (t : Str) (m : Str),
      m ∈ reFindAllAux f ks t → m = [] ∨ m ∈ ks := by
  induction f with
  | zero => intro ks t m hm; simp [reFindAllAux] at hm
  | succ f ih =>
    intro ks t m hm
    rw [reFindAllAuxSucc] at hm
    cases htry : tryAlts ks t with
    | some k =>
      simp only [htry] at hm
      have hkks : k ∈ ks := by
        unfold tryAlts at htry
        exact List.mem_of_find?_eq_some htry
      by_cases hk : k.isEmpty = true
      · rw [if_pos hk] at hm
        cases t with
        | nil =>
          rcases List.mem_cons.mp hm with rfl | hh
          · exact Or.inl rfl
          · simp at hh
        | cons c rest =>
          rcases List.mem_cons.mp hm with rfl | hh
          · exact Or.inl rfl
          · exact ih ks rest m hh
      · rw [if_neg hk] at hm
        rcases List.mem_cons.mp hm with rfl | hh
        · exact Or.inr hkks
        · exact ih ks _ m hh
    | none =>
      simp only [htry] at hm
      cases t with
      | nil => simp at hm
      | cons c rest => exact ih ks rest m hm

theorem entriesFindRegex (t : Str) (kws : List Str) (hlen : kws.length ≠ 1) :
    ∀ p ∈ findKeywordsRegex t kws, 1 ≤ p.2 ∧ p.1 ∈ kws.map lowerStr := by
  unfold findKeywordsRegex
  by_cases hke : kws.isEmpty
  · rw [if_pos hke]
    intro p hp
    simp at hp
  · rw [if_neg hke]
    unfold findRegexCore
    by_cases hse : (sortStrs kws).isEmpty
    · rw [if_pos hse]
      intro p hp
      simp at hp
    · rw [if_neg hse]
      have hs1 : ¬ (sortStrs kws).length = 1 := by
        rw [sortStrsLength]
        exact hlen
      simp only
      rw [if_neg hs1]
      intro p hp
      refine counterAuxEntries _ (kws.map lowerStr) ?_ [] (by simp) p hp
      intro x hx
      have hx2 := List.mem_of_mem_filter hx
      have hxne : ¬ x.isEmpty = true := by
        have := List.of_mem_filter hx
        simpa using this
      rcases reFindAllMem _ _ _ x hx2 with rfl | hxin
      · exact absurd rfl hxne
      · rcases List.mem_map.mp hxin with ⟨k, hk, rfl⟩
        exact List.mem_map_of_mem lowerStr ((memSortStrs k kws).mp hk)

theorem exprMatchTailCases (e2 : Str) (kws : List Str) (target : Assoc) :
    exprMatchTail e2 kws target = none ∨
      (target.isEmpty = false ∧ exprMatchTail e2 kws target = some target) := by
  unfold exprMatchTail
  by_cases hte : target.isEmpty = true
  · rw [if_pos hte]
    exact Or.inl rfl
  · have hte2 : target.isEmpty = false := by
      cases h : target.isEmpty with
      | true => exact absurd h hte
      | false => rfl
    rw [if_neg hte]
    by_cases h1 : (hasChar e2 '+' && !hasChar e2 '|' && !hasChar e2 '(') = true
    · rw [if_pos h1]
      by_cases h2 : ((dedupFirst (kws.map lowerStr)).all
          (fun k => memStr k (target.map Prod.fst))) = true
      · rw [if_pos h2]
        exact Or.inr ⟨hte2, rfl⟩
      · rw [if_neg h2]
        exact Or.inl rfl
    · rw [if_neg h1]
      by_cases h3 : (hasChar e2 '|' && !hasChar e2 '+' && !hasChar e2 '(') = true
      · rw [if_pos h3]
        by_cases h4 : ((dedupFirst (kws.map lowerStr)).any
            (fun k => memStr k (target.map Prod.fst))) = true
        · rw [if_pos h4]
          exact Or.inr ⟨hte2, rfl⟩
        · rw [if_neg h4]
          exact Or.inl rfl
      · rw [if_neg h3]
        cases hce : complexExpression e2 with
        | none => exact Or.inl rfl
        | some ast =>
          have hred : (match some ast with
              | some a => if checkMatch a (target.map Prod.fst) = true then
                  some target else none
              | none => none) =
              (if checkMatch ast (target.map Prod.fst) = true then some target
               else none) := rfl
          rw [hred]
          by_cases h5 : checkMatch ast (target.map Prod.fst) = true
          · rw [if_pos h5]
            exact Or.inr ⟨hte2, rfl⟩
          · rw [if_neg h5]
            exact Or.inl rfl

/-- Claim C10: `expr_match` always returns either the no-match sentinel or
a non-empty mapping whose keys are lowercased keywords extracted from the
expression and whose counts are all at least 1; it never returns a bare
`True`, never an empty mapping, and the embedding is a total function (no
exception reaches the caller). -/
theorem c10_thm (e v : Str) :
    exprMatch e v = none ∨
      ∃ m, exprMatch e v = some m ∧ m ≠ [] ∧
        ∀ p ∈ m, 1 ≤ p.2 ∧
          p.1 ∈ (dedupFirst (splitKws (stripWs e))).map lowerStr := by
  unfold exprMatch
  by_cases hk : (dedupFirst (splitKws (stripWs e))).isEmpty = true
  · rw [if_pos hk]
    exact Or.inl rfl
  · rw [if_neg hk]
    have htar : ∀ p ∈ (if (dedupFirst (splitKws (stripWs e))).length ≤ 20 then
          findKeywordsSimple (lowerStr v) (dedupFirst (splitKws (stripWs e)))
        else findKeywordsRegex (lowerStr v) (dedupFirst (splitKws (stripWs e)))),
        1 ≤ p.2 ∧ p.1 ∈ (dedupFirst (splitKws (stripWs e))).map lowerStr := by
      by_cases hl : (dedupFirst (splitKws (stripWs e))).length ≤ 20
      · rw [if_pos hl]
        exact entriesFindSimple _ _
      · rw [if_neg hl]
        refine entriesFindRegex _ _ ?_
        omega
    rcases exprMatchTailCases (stripWs e) (dedupFirst (splitKws (stripWs e))) _
      with h | ⟨hne2, h⟩
    · exact Or.inl h
    · refine Or.inr ⟨_, h, ?_, htar⟩
      intro hh
      rw [hh] at hne2
      simp at hne2
